import Mathlib

/-!
Verification development for the clues-solver repository.

The repository documents a declarative constraint expression language over a
grid board of entities ("Constraints API Reference"), together with a design
for a pure evaluator and a certainty-deduction solver, and ships Chrome
extension glue code (background.js, popup.js, a content script).  The core
language, evaluator and solver are modelled here from the design document,
since the repository contains their specification but not their
implementation; the Chrome glue functions (analyzeWithClaude,
parseCharacterCard, parseGameState) are embedded directly from the source.
-/

namespace Clues

/-- A board label: the binary truth value an entity ultimately holds. -/
inductive Label where
  | innocent
  | criminal
deriving DecidableEq, Repr

/-- Board-storage label state of an entity: a known `Label` or Unresolved.
`unresolved` exists only as board-storage state, never as an evaluation
result (the `Value` type below has no such constructor). -/
inductive LabelState where
  | known (l : Label)
  | unresolved
deriving DecidableEq, Repr

/-- A 0-indexed (row, column) grid position. -/
structure Pos where
  row : Nat
  col : Nat
deriving DecidableEq, Repr

/-- An entity: unique name, profession, position, current label-state. -/
structure Entity where
  name : String
  profession : String
  pos : Pos
  state : LabelState
deriving DecidableEq, Repr

/-- An immutable board snapshot: grid dimensions plus the ordered entity
collection. -/
structure Board where
  rows : Nat
  cols : Nat
  entities : List Entity
deriving DecidableEq, Repr

/-- Strict row-major order on positions: lowest row first, then lowest
column. -/
def rmLt (p q : Pos) : Prop :=
  p.row < q.row ∨ (p.row = q.row ∧ p.col < q.col)

instance : DecidableRel rmLt := fun p q => by
  unfold rmLt; infer_instance

/-- Non-strict row-major order on positions. -/
def rmLe (p q : Pos) : Prop :=
  p.row < q.row ∨ (p.row = q.row ∧ p.col ≤ q.col)

instance : DecidableRel rmLe := fun p q => by
  unfold rmLe; infer_instance

/-- All grid positions of a board, in row-major order. -/
def gridPositions (b : Board) : List Pos :=
  ((List.range b.rows).map (fun r => (List.range b.cols).map (fun c => Pos.mk r c))).flatten

/-- A position is on the edge of the grid iff its row is 0 or R-1 or its
column is 0 or C-1. -/
def isEdgePos (b : Board) (p : Pos) : Bool :=
  p.row == 0 || p.row == b.rows - 1 || p.col == 0 || p.col == b.cols - 1

/-- The first entity occupying a given position, if any. -/
def entityAtPos (b : Board) (p : Pos) : Option Entity :=
  b.entities.find? (fun e => e.pos == p)

/-- The first entity with a given name, if any. -/
def entityNamed (b : Board) (n : String) : Option Entity :=
  b.entities.find? (fun e => e.name == n)

/-- Position of the named character, if present. -/
def charPos (b : Board) (n : String) : Option Pos :=
  (entityNamed b n).map (·.pos)

/-- Positions strictly above a source position: same column, strictly
smaller row. -/
def abovePositions (b : Board) (src : Pos) : List Pos :=
  (gridPositions b).filter (fun q => q.col == src.col && q.row < src.row)

/-- Positions strictly below a source position: same column, strictly
larger row. -/
def belowPositions (b : Board) (src : Pos) : List Pos :=
  (gridPositions b).filter (fun q => q.col == src.col && src.row < q.row)

/-- Positions strictly to the left: same row, strictly smaller column. -/
def leftOfPositions (b : Board) (src : Pos) : List Pos :=
  (gridPositions b).filter (fun q => q.row == src.row && q.col < src.col)

/-- Positions strictly to the right: same row, strictly larger column. -/
def rightOfPositions (b : Board) (src : Pos) : List Pos :=
  (gridPositions b).filter (fun q => q.row == src.row && src.col < q.col)

/-- Chebyshev distance between two positions. -/
def chebyshev (p q : Pos) : Nat :=
  max (Nat.dist p.row q.row) (Nat.dist p.col q.col)

/-- Neighbor positions: Chebyshev distance exactly 1 (up to 8 of them),
clipped to board bounds, excluding the source itself. -/
def neighborPositions (b : Board) (src : Pos) : List Pos :=
  (gridPositions b).filter (fun q => chebyshev q src == 1)

/-- Sorted (row-major) duplicate-free insertion into a position list. -/
def canonIns (p : Pos) : List Pos → List Pos
  | [] => [p]
  | q :: rest =>
    if p = q then q :: rest
    else if rmLt p q then p :: q :: rest
    else q :: canonIns p rest

/-- Canonical form of a position set: sorted row-major, deduplicated.
PositionSet values have set semantics (unordered, deduplicated). -/
def canonPS (l : List Pos) : List Pos :=
  l.foldr canonIns []

/-- The tagged union of runtime values.  Note there is no constructor for
`Unresolved`: it is board-storage state only, never an evaluation result. -/
inductive Value where
  | pos (p : Pos)
  | posSet (ps : List Pos)
  | num (n : Int)
  | bool (b : Bool)
  | label (l : Label)
  | profession (s : String)
deriving DecidableEq, Repr

/-- Reasons for a ReferenceError. -/
inductive RefReason where
  | unknownName (n : String)
  | emptyPosition (p : Pos)
  | unresolvedPosition (p : Pos)
  | noBoundPosition
deriving DecidableEq, Repr

/-- The evaluator's typed error kinds: ReferenceError, TypeError,
ArityError. -/
inductive EvalError where
  | referenceError (r : RefReason)
  | typeError (msg : String)
  | arityError (msg : String)
deriving DecidableEq, Repr

/-- Evaluation result: a typed value or a typed error. -/
abbrev Result := Except EvalError Value

instance {ε α : Type} [DecidableEq ε] [DecidableEq α] : DecidableEq (Except ε α) :=
  fun a b =>
    match a, b with
    | .ok x, .ok y =>
      if h : x = y then .isTrue (by rw [h]) else .isFalse (by intro hc; cases hc; exact h rfl)
    | .ok _, .error _ => .isFalse (by intro hc; cases hc)
    | .error _, .ok _ => .isFalse (by intro hc; cases hc)
    | .error x, .error y =>
      if h : x = y then .isTrue (by rw [h]) else .isFalse (by intro hc; cases hc; exact h rfl)

/-- Two positions are king-adjacent: Chebyshev distance exactly 1. -/
def adjacentPos (p q : Pos) : Bool :=
  chebyshev p q == 1

/-- One round of connectivity growth: move every pool member adjacent to the
reached set into the reached set. -/
def growReach : Nat → List Pos → List Pos → List Pos
  | 0, reached, _ => reached
  | n + 1, reached, pool =>
    let newly := pool.filter (fun q => reached.any (fun p => adjacentPos p q))
    if newly.isEmpty then reached
    else growReach n (reached ++ newly) (pool.filter (fun q => !(reached ++ newly).contains q))

/-- A position set is connected iff, viewed as a graph with edges between
king-adjacent members, it forms a single component; empty and singleton
sets are vacuously connected. -/
def connectedPS (ps : List Pos) : Bool :=
  match canonPS ps with
  | [] => true
  | p :: rest => (growReach (rest.length + 1) [p] rest).length == (canonPS ps).length

/-- Coerce a value to a position set, TypeError otherwise. -/
def asPosSet : Value → Except EvalError (List Pos)
  | .posSet ps => .ok ps
  | _ => .error (.typeError "expected a position set")

/-- Coerce a value to a number, TypeError otherwise. -/
def asNum : Value → Except EvalError Int
  | .num n => .ok n
  | _ => .error (.typeError "expected a number")

/-- Equality test between two same-typed values; `none` on a type mismatch.
Position sets compare with set semantics. -/
def valueEq : Value → Value → Option Bool
  | .pos a, .pos b => some (a == b)
  | .posSet a, .posSet b => some (canonPS a == canonPS b)
  | .num a, .num b => some (a == b)
  | .bool a, .bool b => some (a == b)
  | .label a, .label b => some (a == b)
  | .profession a, .profession b => some (a == b)
  | _, _ => none

/-- The closed set of expression node kinds, as a tagged-variant type.
Capitalised constructors are the canonical nodes of the Constraints API
Reference (Literal, Character, AllCharacters, EdgePositions, Above, Below,
LeftOf, RightOf, Neighbors, Filter, Intersection, Union, And, Or, Not,
Count, Sum, HasLabel, HasProfession, IsEdge, IsUnknown, Equal, Greater,
GreaterEqual, Less, LessEqual, IsOdd, IsEven, AreConnected); lowercase
constructors are its convenience (sugar) call forms.  Predicates take an
optional explicit position operand; when it is omitted they apply to the
ambient candidate position bound by an enclosing Filter. -/
inductive Expr where
  | Literal (v : Value)
  | Character (name : String)
  | AllCharacters
  | EdgePositions
  | Above (e : Expr)
  | Below (e : Expr)
  | LeftOf (e : Expr)
  | RightOf (e : Expr)
  | Neighbors (e : Expr)
  | Filter (src : Expr) (pred : Expr)
  | Intersection (es : List Expr)
  | Union (es : List Expr)
  | And (es : List Expr)
  | Or (es : List Expr)
  | Not (e : Expr)
  | Count (e : Expr)
  | Sum (e : Expr)
  | HasLabel (target : Option Expr) (lab : Label)
  | HasProfession (target : Option Expr) (prof : String)
  | IsEdge (target : Option Expr)
  | IsUnknown (target : Option Expr)
  | Equal (a : Expr) (c : Expr)
  | Greater (a : Expr) (c : Expr)
  | GreaterEqual (a : Expr) (c : Expr)
  | Less (a : Expr) (c : Expr)
  | LessEqual (a : Expr) (c : Expr)
  | IsOdd (e : Expr)
  | IsEven (e : Expr)
  | AreConnected (e : Expr)
  | above' (name : String)
  | below' (name : String)
  | left_of (name : String)
  | right_of (name : String)
  | neighbors_of (name : String)
  | criminals (s : Expr)
  | innocents (s : Expr)
  | count_criminals (s : Expr)
  | count_innocents (s : Expr)
deriving Repr

mutual

/-- Structural size of an expression, used as the evaluator's fuel bound. -/
def exprSize : Expr → Nat
  | .Literal _ => 1
  | .Character _ => 1
  | .AllCharacters => 1
  | .EdgePositions => 1
  | .Above e => 1 + exprSize e
  | .Below e => 1 + exprSize e
  | .LeftOf e => 1 + exprSize e
  | .RightOf e => 1 + exprSize e
  | .Neighbors e => 1 + exprSize e
  | .Filter src pred => 1 + exprSize src + exprSize pred
  | .Intersection es => 1 + exprListSize es
  | .Union es => 1 + exprListSize es
  | .And es => 1 + exprListSize es
  | .Or es => 1 + exprListSize es
  | .Not e => 1 + exprSize e
  | .Count e => 1 + exprSize e
  | .Sum e => 1 + exprSize e
  | .HasLabel t _ => 1 + exprOptSize t
  | .HasProfession t _ => 1 + exprOptSize t
  | .IsEdge t => 1 + exprOptSize t
  | .IsUnknown t => 1 + exprOptSize t
  | .Equal a c => 1 + exprSize a + exprSize c
  | .Greater a c => 1 + exprSize a + exprSize c
  | .GreaterEqual a c => 1 + exprSize a + exprSize c
  | .Less a c => 1 + exprSize a + exprSize c
  | .LessEqual a c => 1 + exprSize a + exprSize c
  | .IsOdd e => 1 + exprSize e
  | .IsEven e => 1 + exprSize e
  | .AreConnected e => 1 + exprSize e
  | .above' _ => 1
  | .below' _ => 1
  | .left_of _ => 1
  | .right_of _ => 1
  | .neighbors_of _ => 1
  | .criminals s => 1 + exprSize s
  | .innocents s => 1 + exprSize s
  | .count_criminals s => 1 + exprSize s
  | .count_innocents s => 1 + exprSize s

/-- Structural size of an expression list. -/
def exprListSize : List Expr → Nat
  | [] => 0
  | e :: es => 1 + exprSize e + exprListSize es

/-- Structural size of an optional expression. -/
def exprOptSize : Option Expr → Nat
  | none => 0
  | some e => 1 + exprSize e

end

/-- Evaluate a list of expressions left-to-right against a fixed evaluation
function; the first error encountered is the one surfaced. -/
def evalSeq (f : Expr → Result) : List Expr → Except EvalError (List Value)
  | [] => .ok []
  | e :: rest => do
    let v ← f e
    let vs ← evalSeq f rest
    .ok (v :: vs)

/-- Require every operand of a variadic logical node to be a boolean. -/
def allBools : List Value → Except EvalError (List Bool)
  | [] => .ok []
  | .bool v :: rest => do
    let bs ← allBools rest
    .ok (v :: bs)
  | _ :: _ => .error (.typeError "logical operator expects boolean operands")

/-- Require every operand of a variadic set node to be a position set. -/
def allPosSets : List Value → Except EvalError (List (List Pos))
  | [] => .ok []
  | .posSet s :: rest => do
    let ss ← allPosSets rest
    .ok (s :: ss)
  | _ :: _ => .error (.typeError "set operation expects position set operands")

/-- Shared semantics of the directional / Neighbors generators: a Position
source gives the generated set, a PositionSet source gives the union over
its members; other operand types are TypeErrors. -/
def dirStep (f : Pos → List Pos) : Result → Result
  | .error er => .error er
  | .ok (.pos p) => .ok (.posSet (canonPS (f p)))
  | .ok (.posSet ps) => .ok (.posSet (canonPS ((ps.map f).flatten)))
  | .ok _ => .error (.typeError "directional operator expects a position or a position set")

/-- Run a Filter predicate once per candidate, left to right; an erroring
element fails the whole Filter with that error, a non-boolean predicate
value is a TypeError. -/
def filterGo (pf : Pos → Result) : List Pos → Except EvalError (List Pos)
  | [] => .ok []
  | p :: rest => do
    let v ← pf p
    match v with
    | .bool true => do
      let ks ← filterGo pf rest
      .ok (p :: ks)
    | .bool false => filterGo pf rest
    | _ => .error (.typeError "Filter predicate must evaluate to a boolean")

/-- Filter node semantics over the evaluated source set. -/
def filterStep (srcR : Result) (pf : Pos → Result) : Result := do
  let v ← srcR
  let ps ← asPosSet v
  let kept ← filterGo pf (canonPS ps)
  .ok (.posSet kept)

/-- And node semantics over the evaluated operands. -/
def andStep (rs : Except EvalError (List Value)) : Result := do
  let vs ← rs
  let bs ← allBools vs
  .ok (.bool (bs.all id))

/-- Or node semantics over the evaluated operands. -/
def orStep (rs : Except EvalError (List Value)) : Result := do
  let vs ← rs
  let bs ← allBools vs
  .ok (.bool (bs.any id))

/-- Union node semantics over the evaluated operands. -/
def unionStep (rs : Except EvalError (List Value)) : Result := do
  let vs ← rs
  let ss ← allPosSets vs
  .ok (.posSet (canonPS ss.flatten))

/-- Intersection node semantics over the evaluated operands. -/
def interStep (rs : Except EvalError (List Value)) : Result := do
  let vs ← rs
  let ss ← allPosSets vs
  match ss with
  | [] => .error (.arityError "Intersection requires at least one operand")
  | s :: rest =>
    .ok (.posSet (canonPS (rest.foldl (fun acc t => acc.filter (fun p => t.contains p)) s)))

/-- Not node semantics. -/
def notStep : Result → Result
  | .error er => .error er
  | .ok (.bool v) => .ok (.bool (!v))
  | .ok _ => .error (.typeError "Not expects a boolean")

/-- Count node semantics: the size of the (deduplicated) set. -/
def countStep : Result → Result
  | .error er => .error er
  | .ok (.posSet ps) => .ok (.num ((canonPS ps).length : Int))
  | .ok _ => .error (.typeError "Count expects a position set")

/-- Sum node semantics.  Modelled from the spec: the Value universe contains
no numeric-collection value, so Sum's operand can never satisfy its type
contract and it fails with a TypeError after evaluating its operand. -/
def sumStep : Result → Result
  | .error er => .error er
  | .ok _ => .error (.typeError "Sum expects a numeric collection")

/-- Equal node semantics: same-typed comparison, TypeError on mismatch. -/
def equalStep : Result → Result → Result
  | .error er, _ => .error er
  | .ok _, .error er => .error er
  | .ok v1, .ok v2 =>
    match valueEq v1 v2 with
    | some r => .ok (.bool r)
    | none => .error (.typeError "Equal requires two values of the same type")

/-- Ordering comparison semantics: both operands must be numbers. -/
def cmpStep (f : Int → Int → Bool) : Result → Result → Result
  | .error er, _ => .error er
  | .ok _, .error er => .error er
  | .ok v1, .ok v2 => do
    let x ← asNum v1
    let y ← asNum v2
    .ok (.bool (f x y))

/-- IsOdd / IsEven semantics: the operand must be a number. -/
def parityStep (f : Int → Bool) : Result → Result
  | .error er => .error er
  | .ok (.num m) => .ok (.bool (f m))
  | .ok _ => .error (.typeError "parity check expects a number")

/-- AreConnected semantics: the operand must be a position set. -/
def connStep : Result → Result
  | .error er => .error er
  | .ok (.posSet ps) => .ok (.bool (connectedPS ps))
  | .ok _ => .error (.typeError "AreConnected expects a position set")

/-- Resolve a predicate's position operand: an explicit operand must
evaluate to a Position; with no explicit operand the ambient candidate
position bound by an enclosing Filter is used, and its absence is a
ReferenceError. -/
def targetRes (bind : Option Pos) : Option Result → Except EvalError Pos
  | none =>
    match bind with
    | some p => .ok p
    | none => .error (.referenceError .noBoundPosition)
  | some r => do
    let v ← r
    match v with
    | .pos p => .ok p
    | _ => .error (.typeError "predicate expects a position operand")

/-- HasLabel semantics: the entity occupying the position is compared
against the given label; an empty position or an Unresolved occupant is a
ReferenceError. -/
def hasLabelStep (b : Board) (lab : Label) : Except EvalError Pos → Result
  | .error er => .error er
  | .ok p =>
    match entityAtPos b p with
    | none => .error (.referenceError (.emptyPosition p))
    | some ent =>
      match ent.state with
      | .unresolved => .error (.referenceError (.unresolvedPosition p))
      | .known l => .ok (.bool (l == lab))

/-- HasProfession semantics: an empty position is a ReferenceError. -/
def hasProfessionStep (b : Board) (prof : String) : Except EvalError Pos → Result
  | .error er => .error er
  | .ok p =>
    match entityAtPos b p with
    | none => .error (.referenceError (.emptyPosition p))
    | some ent => .ok (.bool (ent.profession == prof))

/-- IsEdge semantics. -/
def isEdgeStep (b : Board) : Except EvalError Pos → Result
  | .error er => .error er
  | .ok p => .ok (.bool (isEdgePos b p))

/-- IsUnknown semantics: an empty position is a ReferenceError. -/
def isUnknownStep (b : Board) : Except EvalError Pos → Result
  | .error er => .error er
  | .ok p =>
    match entityAtPos b p with
    | none => .error (.referenceError (.emptyPosition p))
    | some ent => .ok (.bool (ent.state == .unresolved))

/-- The recursive reduction of the evaluator, structured on a fuel bound so
that every recursive call strictly decreases the fuel; `exprSize e` fuel
always suffices (see the fuel-irrelevance theorem).  The evaluator covers
the canonical node kinds; convenience forms are rewritten by the expander
before evaluation and are a TypeError if they reach the evaluator. -/
def evalF : Nat → Board → Option Pos → Expr → Result
  | 0, _, _, _ => .error (.typeError "evaluation fuel exhausted")
  | n + 1, b, bind, e =>
    match e with
    | .Literal v => .ok v
    | .Character nm =>
      match charPos b nm with
      | some p => .ok (.pos p)
      | none => .error (.referenceError (.unknownName nm))
    | .AllCharacters => .ok (.posSet (canonPS (b.entities.map (·.pos))))
    | .EdgePositions => .ok (.posSet (canonPS ((gridPositions b).filter (isEdgePos b))))
    | .Above e1 => dirStep (abovePositions b) (evalF n b bind e1)
    | .Below e1 => dirStep (belowPositions b) (evalF n b bind e1)
    | .LeftOf e1 => dirStep (leftOfPositions b) (evalF n b bind e1)
    | .RightOf e1 => dirStep (rightOfPositions b) (evalF n b bind e1)
    | .Neighbors e1 => dirStep (neighborPositions b) (evalF n b bind e1)
    | .Filter src pred => filterStep (evalF n b bind src) (fun p => evalF n b (some p) pred)
    | .Intersection es =>
      if es.isEmpty then .error (.arityError "Intersection requires at least one operand")
      else interStep (evalSeq (evalF n b bind) es)
    | .Union es =>
      if es.isEmpty then .error (.arityError "Union requires at least one operand")
      else unionStep (evalSeq (evalF n b bind) es)
    | .And es =>
      if es.isEmpty then .error (.arityError "And requires at least one operand")
      else andStep (evalSeq (evalF n b bind) es)
    | .Or es =>
      if es.isEmpty then .error (.arityError "Or requires at least one operand")
      else orStep (evalSeq (evalF n b bind) es)
    | .Not e1 => notStep (evalF n b bind e1)
    | .Count e1 => countStep (evalF n b bind e1)
    | .Sum e1 => sumStep (evalF n b bind e1)
    | .HasLabel t lab => hasLabelStep b lab (targetRes bind (t.map (evalF n b bind)))
    | .HasProfession t prof => hasProfessionStep b prof (targetRes bind (t.map (evalF n b bind)))
    | .IsEdge t => isEdgeStep b (targetRes bind (t.map (evalF n b bind)))
    | .IsUnknown t => isUnknownStep b (targetRes bind (t.map (evalF n b bind)))
    | .Equal a c => equalStep (evalF n b bind a) (evalF n b bind c)
    | .Greater a c => cmpStep (fun x y => decide (x > y)) (evalF n b bind a) (evalF n b bind c)
    | .GreaterEqual a c => cmpStep (fun x y => decide (x ≥ y)) (evalF n b bind a) (evalF n b bind c)
    | .Less a c => cmpStep (fun x y => decide (x < y)) (evalF n b bind a) (evalF n b bind c)
    | .LessEqual a c => cmpStep (fun x y => decide (x ≤ y)) (evalF n b bind a) (evalF n b bind c)
    | .IsOdd e1 => parityStep (fun m => decide (m % 2 ≠ 0)) (evalF n b bind e1)
    | .IsEven e1 => parityStep (fun m => decide (m % 2 = 0)) (evalF n b bind e1)
    | .AreConnected e1 => connStep (evalF n b bind e1)
    | .above' _ | .below' _ | .left_of _ | .right_of _ | .neighbors_of _
    | .criminals _ | .innocents _ | .count_criminals _ | .count_innocents _ =>
      .error (.typeError "convenience form reached the evaluator unexpanded")

/-- `evaluate expr board` is the evaluator's entry point: a pure,
deterministic reduction of a canonical expression against a board snapshot
to a typed value or typed error.  `exprSize expr` fuel always suffices. -/
def evaluate (b : Board) (bind : Option Pos) (e : Expr) : Result :=
  evalF (exprSize e) b bind e

/-- The sugar expander's recursion, structured on a fuel bound; `exprSize e`
fuel always suffices.  It rewrites each convenience form to its canonical
tree bottom-up and rebuilds every other node with expanded children:
`above(name) = Above(Character(name))` and likewise below / left_of /
right_of / neighbors_of; `criminals(S) = Filter(S, HasLabel(CRIMINAL))` and
likewise innocents; `count_criminals(S) = Count(Filter(S,
HasLabel(CRIMINAL)))` and likewise count_innocents. -/
def expandF : Nat → Expr → Expr
  | 0, e => e
  | n + 1, e =>
    match e with
    | .above' nm => .Above (.Character nm)
    | .below' nm => .Below (.Character nm)
    | .left_of nm => .LeftOf (.Character nm)
    | .right_of nm => .RightOf (.Character nm)
    | .neighbors_of nm => .Neighbors (.Character nm)
    | .criminals s => .Filter (expandF n s) (.HasLabel none .criminal)
    | .innocents s => .Filter (expandF n s) (.HasLabel none .innocent)
    | .count_criminals s => .Count (.Filter (expandF n s) (.HasLabel none .criminal))
    | .count_innocents s => .Count (.Filter (expandF n s) (.HasLabel none .innocent))
    | .Literal v => .Literal v
    | .Character nm => .Character nm
    | .AllCharacters => .AllCharacters
    | .EdgePositions => .EdgePositions
    | .Above e1 => .Above (expandF n e1)
    | .Below e1 => .Below (expandF n e1)
    | .LeftOf e1 => .LeftOf (expandF n e1)
    | .RightOf e1 => .RightOf (expandF n e1)
    | .Neighbors e1 => .Neighbors (expandF n e1)
    | .Filter src pred => .Filter (expandF n src) (expandF n pred)
    | .Intersection es => .Intersection (es.map (expandF n))
    | .Union es => .Union (es.map (expandF n))
    | .And es => .And (es.map (expandF n))
    | .Or es => .Or (es.map (expandF n))
    | .Not e1 => .Not (expandF n e1)
    | .Count e1 => .Count (expandF n e1)
    | .Sum e1 => .Sum (expandF n e1)
    | .HasLabel t lab => .HasLabel (t.map (expandF n)) lab
    | .HasProfession t prof => .HasProfession (t.map (expandF n)) prof
    | .IsEdge t => .IsEdge (t.map (expandF n))
    | .IsUnknown t => .IsUnknown (t.map (expandF n))
    | .Equal a c => .Equal (expandF n a) (expandF n c)
    | .Greater a c => .Greater (expandF n a) (expandF n c)
    | .GreaterEqual a c => .GreaterEqual (expandF n a) (expandF n c)
    | .Less a c => .Less (expandF n a) (expandF n c)
    | .LessEqual a c => .LessEqual (expandF n a) (expandF n c)
    | .IsOdd e1 => .IsOdd (expandF n e1)
    | .IsEven e1 => .IsEven (expandF n e1)
    | .AreConnected e1 => .AreConnected (expandF n e1)

/-- Sugar expansion: the pure, total rewrite pass from convenience forms to
canonical AST. -/
def expand (e : Expr) : Expr :=
  expandF (exprSize e) e

/-- An expression tree is canonical when it is built from canonical node
kinds only, i.e. it contains no convenience (sugar) form anywhere. -/
inductive Canonical : Expr → Prop where
  | Literal (v : Value) : Canonical (.Literal v)
  | Character (nm : String) : Canonical (.Character nm)
  | AllCharacters : Canonical .AllCharacters
  | EdgePositions : Canonical .EdgePositions
  | Above {e : Expr} : Canonical e → Canonical (.Above e)
  | Below {e : Expr} : Canonical e → Canonical (.Below e)
  | LeftOf {e : Expr} : Canonical e → Canonical (.LeftOf e)
  | RightOf {e : Expr} : Canonical e → Canonical (.RightOf e)
  | Neighbors {e : Expr} : Canonical e → Canonical (.Neighbors e)
  | Filter {src pred : Expr} : Canonical src → Canonical pred → Canonical (.Filter src pred)
  | Intersection {es : List Expr} : (∀ e ∈ es, Canonical e) → Canonical (.Intersection es)
  | Union {es : List Expr} : (∀ e ∈ es, Canonical e) → Canonical (.Union es)
  | And {es : List Expr} : (∀ e ∈ es, Canonical e) → Canonical (.And es)
  | Or {es : List Expr} : (∀ e ∈ es, Canonical e) → Canonical (.Or es)
  | Not {e : Expr} : Canonical e → Canonical (.Not e)
  | Count {e : Expr} : Canonical e → Canonical (.Count e)
  | Sum {e : Expr} : Canonical e → Canonical (.Sum e)
  | HasLabel {t : Option Expr} (lab : Label) :
      (∀ e ∈ t, Canonical e) → Canonical (.HasLabel t lab)
  | HasProfession {t : Option Expr} (prof : String) :
      (∀ e ∈ t, Canonical e) → Canonical (.HasProfession t prof)
  | IsEdge {t : Option Expr} : (∀ e ∈ t, Canonical e) → Canonical (.IsEdge t)
  | IsUnknown {t : Option Expr} : (∀ e ∈ t, Canonical e) → Canonical (.IsUnknown t)
  | Equal {a c : Expr} : Canonical a → Canonical c → Canonical (.Equal a c)
  | Greater {a c : Expr} : Canonical a → Canonical c → Canonical (.Greater a c)
  | GreaterEqual {a c : Expr} : Canonical a → Canonical c → Canonical (.GreaterEqual a c)
  | Less {a c : Expr} : Canonical a → Canonical c → Canonical (.Less a c)
  | LessEqual {a c : Expr} : Canonical a → Canonical c → Canonical (.LessEqual a c)
  | IsOdd {e : Expr} : Canonical e → Canonical (.IsOdd e)
  | IsEven {e : Expr} : Canonical e → Canonical (.IsEven e)
  | AreConnected {e : Expr} : Canonical e → Canonical (.AreConnected e)

/-- Row-major (non-strict) order lifted to entities. -/
def entRmLe (e1 e2 : Entity) : Prop :=
  rmLe e1.pos e2.pos

instance : DecidableRel entRmLe := fun e1 e2 => by
  unfold entRmLe; infer_instance

instance : IsTotal Entity entRmLe :=
  ⟨fun e1 e2 => by unfold entRmLe rmLe; omega⟩

instance : IsTrans Entity entRmLe :=
  ⟨fun e1 e2 e3 => by unfold entRmLe rmLe; omega⟩

/-- The Unresolved entities of a board, in row-major position order (the
fixed deterministic order used for trial generation and for the
tie-break). -/
def unresolvedEntities (b : Board) : List Entity :=
  List.insertionSort entRmLe (b.entities.filter (fun e => e.state == .unresolved))

/-- Names of the Unresolved entities in row-major position order. -/
def unresolvedNames (b : Board) : List String :=
  (unresolvedEntities b).map (·.name)

/-- A candidate assignment: labels for unresolved entities, keyed by
entity name. -/
abbrev Assign := List (String × Label)

/-- Label assigned to a name by a candidate assignment. -/
def lookupA (σ : Assign) (n : String) : Option Label :=
  (σ.find? (fun q => q.1 == n)).map (·.2)

/-- Enumerate every total assignment of a Label to each listed name
(2 ^ n candidates), in a fixed deterministic order. -/
def allAssignments : List String → List Assign
  | [] => [[]]
  | n :: ns =>
    (allAssignments ns).map (fun σ => (n, Label.innocent) :: σ) ++
    (allAssignments ns).map (fun σ => (n, Label.criminal) :: σ)

/-- Construct a trial board from a candidate assignment: every Unresolved
entity covered by the assignment takes its assigned label; nothing is
mutated in place. -/
def applyAssign (b : Board) (σ : Assign) : Board :=
  { b with
    entities := b.entities.map (fun e =>
      match e.state with
      | .unresolved =>
        match lookupA σ e.name with
        | some l => { e with state := .known l }
        | none => e
      | _ => e) }

/-- Trial board for a total assignment given as a function: every
Unresolved entity takes the label the function gives its name. -/
def applyFun (b : Board) (f : String → Label) : Board :=
  { b with
    entities := b.entities.map (fun e =>
      match e.state with
      | .unresolved => { e with state := .known (f e.name) }
      | _ => e) }

/-- A total assignment is a consistent model iff every clue evaluates to
true on its trial board (an error fails the trial as well). -/
def IsModel (b : Board) (clues : List Expr) (f : String → Label) : Prop :=
  ∀ c ∈ clues, evaluate (applyFun b f) none c = .ok (.bool true)

/-- An unresolved entity is forced to a label (is a certain move) iff it is
assigned that label in every consistent model. -/
def Forced (b : Board) (clues : List Expr) (n : String) (l : Label) : Prop :=
  n ∈ unresolvedNames b ∧ ∀ f, IsModel b clues f → f n = l

/-- Executable consistency check of a candidate assignment. -/
def consistentB (b : Board) (clues : List Expr) (σ : Assign) : Bool :=
  clues.all (fun c => decide (evaluate (applyAssign b σ) none c = .ok (.bool true)))

/-- Full enumeration of the consistent models: all 2 ^ n total assignments
of the unresolved entities, filtered by the consistency check. -/
def models (b : Board) (clues : List Expr) : List Assign :=
  (allAssignments (unresolvedNames b)).filter (consistentB b clues)

/-- The outcome kind of a recommendation record. -/
inductive Outcome where
  | CERTAIN_MOVE (name : String) (lab : Label)
  | NO_CERTAIN_MOVE
  | UNSAT
  | TIMED_OUT
deriving DecidableEq, Repr

/-- The label a name receives identically across all listed models, if
any. -/
def forcedIn (ms : List Assign) (n : String) : Option Label :=
  match ms with
  | [] => none
  | σ :: rest =>
    match lookupA σ n with
    | some l => if rest.all (fun τ => lookupA τ n == some l) then some l else none
    | none => none

/-- The first name, in the given order, forced to an identical label across
all listed models. -/
def firstForced (ms : List Assign) : List String → Option (String × Label)
  | [] => none
  | n :: ns =>
    match forcedIn ms n with
    | some l => some (n, l)
    | none => firstForced ms ns

/-- The deduction solver over full enumeration.  Degenerate case n = 0
reports NO_CERTAIN_MOVE immediately with no trials generated; zero
consistent models is UNSAT; otherwise the first forced entity in row-major
position order is the certain move, and NO_CERTAIN_MOVE is reported when
consistent models exist but nothing is forced. -/
def solve (b : Board) (clues : List Expr) : Outcome :=
  let names := unresolvedNames b
  if names.isEmpty then .NO_CERTAIN_MOVE
  else
    let ms := models b clues
    if ms.isEmpty then .UNSAT
    else
      match firstForced ms names with
      | some (n, l) => .CERTAIN_MOVE n l
      | none => .NO_CERTAIN_MOVE

/-- Static board geometry: the name-to-position table, unaffected by label
assignments. -/
abbrev Geom := List (String × Pos)

/-- Geometry of a board. -/
def geom (b : Board) : Geom :=
  b.entities.map (fun e => (e.name, e.pos))

/-- Name of the first entity at a position, from the geometry table. -/
def nameAt (g : Geom) (p : Pos) : Option String :=
  (g.find? (fun q => q.2 == p)).map (·.1)

/-- Position of the first entity with a name, from the geometry table. -/
def posOfG (g : Geom) (n : String) : Option Pos :=
  (g.find? (fun q => q.1 == n)).map (·.2)

/-- Union of two optional read sets; `none` means statically unknown. -/
def optUnion : Option (List String) → Option (List String) → Option (List String)
  | some a, some b => some (a ++ b)
  | _, _ => none

/-- Read-set union over an expression list. -/
def readsSeq (f : Expr → Option (List String)) : List Expr → Option (List String)
  | [] => some []
  | e :: es => optUnion (f e) (readsSeq f es)

/-- Static reference analysis: the set of entity names whose label-state the
evaluation of an expression may consult, when statically determinable from
the board geometry (`none` = not statically determinable, treated as
referencing everything).  A clue's referenced entities are fully bound once
this set lies inside the currently assigned names. -/
def readsF : Nat → Geom → Expr → Option (List String)
  | 0, _, _ => none
  | n + 1, g, e =>
    match e with
    | .Literal _ => some []
    | .Character _ => some []
    | .AllCharacters => some []
    | .EdgePositions => some []
    | .Above e1 => readsF n g e1
    | .Below e1 => readsF n g e1
    | .LeftOf e1 => readsF n g e1
    | .RightOf e1 => readsF n g e1
    | .Neighbors e1 => readsF n g e1
    | .Filter src pred => optUnion (readsF n g src) (readsF n g pred)
    | .Intersection es => readsSeq (readsF n g) es
    | .Union es => readsSeq (readsF n g) es
    | .And es => readsSeq (readsF n g) es
    | .Or es => readsSeq (readsF n g) es
    | .Not e1 => readsF n g e1
    | .Count e1 => readsF n g e1
    | .Sum e1 => readsF n g e1
    | .HasLabel t _ =>
      match t with
      | some (.Character cn) =>
        match posOfG g cn with
        | some p =>
          match nameAt g p with
          | some m => some [m]
          | none => some []
        | none => some []
      | _ => none
    | .HasProfession t _ =>
      match t with
      | none => some []
      | some e1 => readsF n g e1
    | .IsEdge t =>
      match t with
      | none => some []
      | some e1 => readsF n g e1
    | .IsUnknown t =>
      match t with
      | some (.Character cn) =>
        match posOfG g cn with
        | some p =>
          match nameAt g p with
          | some m => some [m]
          | none => some []
        | none => some []
      | _ => none
    | .Equal a c => optUnion (readsF n g a) (readsF n g c)
    | .Greater a c => optUnion (readsF n g a) (readsF n g c)
    | .GreaterEqual a c => optUnion (readsF n g a) (readsF n g c)
    | .Less a c => optUnion (readsF n g a) (readsF n g c)
    | .LessEqual a c => optUnion (readsF n g a) (readsF n g c)
    | .IsOdd e1 => readsF n g e1
    | .IsEven e1 => readsF n g e1
    | .AreConnected e1 => readsF n g e1
    | _ => none

/-- A clue's statically referenced entities are all bound by the current
partial assignment. -/
def boundClue (g : Geom) (bound : List String) (c : Expr) : Bool :=
  match readsF (exprSize c) g c with
  | some N => N.all (fun m => bound.contains m)
  | none => false

/-- Prune test after a partial assignment: some clue whose referenced
entities are fully bound evaluates to false. -/
def pruneHere (b : Board) (clues : List Expr) (σ : Assign) : Bool :=
  clues.any (fun c =>
    boundClue (geom b) (σ.map (·.1)) c &&
    decide (evaluate (applyAssign b σ) none c = .ok (.bool false)))

/-- Incremental backtracking trial generation: assign entities one at a
time in the fixed row-major order, and prune a branch as soon as some
fully-bound clue evaluates to false. -/
def backtrack (b : Board) (clues : List Expr) : Assign → List String → List Assign
  | σ, [] => if consistentB b clues σ then [σ] else []
  | σ, n :: ns =>
    if pruneHere b clues σ then []
    else
      backtrack b clues (σ ++ [(n, .innocent)]) ns ++
      backtrack b clues (σ ++ [(n, .criminal)]) ns

/-- The deduction solver over incremental backtracking generation. -/
def solveBT (b : Board) (clues : List Expr) : Outcome :=
  let names := unresolvedNames b
  if names.isEmpty then .NO_CERTAIN_MOVE
  else
    let ms := backtrack b clues [] names
    if ms.isEmpty then .UNSAT
    else
      match firstForced ms names with
      | some (n, l) => .CERTAIN_MOVE n l
      | none => .NO_CERTAIN_MOVE

/-- Character-list prefix test: does the second list lead the first? -/
def charsLeading : List Char → List Char → Bool
  | _, [] => true
  | [], _ :: _ => false
  | c :: cs, d :: ds => c == d && charsLeading cs ds

/-- JS `String.prototype.startsWith`, modelled structurally over the
character list so that concrete instances compute. -/
def jsStartsWith (s pre : String) : Bool :=
  charsLeading s.data pre.data

/-- Drop leading whitespace characters. -/
def dropLeadingWS : List Char → List Char
  | [] => []
  | c :: cs => if c.isWhitespace then dropLeadingWS cs else c :: cs

/-- JS `String.prototype.trim`, modelled structurally over the character
list so that concrete instances compute. -/
def jsTrim (s : String) : String :=
  ⟨(dropLeadingWS (dropLeadingWS s.data).reverse).reverse⟩

/-- What `analyzeWithClaude` (background.js) does before any network
activity: either it reaches the `fetch` call with a resolved model
identifier, or it throws first. -/
inductive ClaudeStep where
  | apiRequest (model : String)
  | thrown (msg : String)
deriving DecidableEq, Repr

/-- The `modelMapping` object literal of `analyzeWithClaude`
(background.js). -/
def modelMapping (m : String) : Option String :=
  if m = "claude-sonnet-4" then some "claude-sonnet-4-20250514"
  else if m = "claude-opus-4-1" then some "claude-opus-4-1-20250805"
  else none

/-- `modelMapping[model] || 'claude-sonnet-4-20250514'` (background.js):
every model name outside the mapping falls back to the default
identifier. -/
def resolveClaudeModel (m : String) : String :=
  (modelMapping m).getD "claude-sonnet-4-20250514"

/-- The pre-request control flow of `analyzeWithClaude` (background.js):
the model identifier is resolved, then the API key format is checked and
an invalid key throws before the `fetch` call is reached. -/
def analyzeWithClaudePre (apiKey model : String) : ClaudeStep :=
  let claudeModel := resolveClaudeModel model
  if jsStartsWith apiKey "sk-ant-" then .apiRequest claudeModel
  else .thrown "Invalid Anthropic API key format. Must start with \"sk-ant-\""

/-- The opening lines of the `prompt` template literal of
`analyzeWithClaude` (background.js); the remainder of the prompt is not
needed here. -/
def claudePromptGridLines : List String :=
  ["This is a screenshot of a Clues puzzle game by Sam. The game has a 5x4 grid of characters arranged in rows and columns.",
   "GRID LAYOUT:",
   "- 5 rows (numbered 1-5 from top to bottom)",
   "- 4 columns (lettered A-D from left to right)",
   "- Each cell contains a character with their name and occupation"]

/-- The opening lines of the `prompt` template literal of
`analyzeWithOpenAI` (content script); identical to the Claude prompt's
opening. -/
def openAIPromptGridLines : List String :=
  ["This is a screenshot of a Clues puzzle game by Sam. The game has a 5x4 grid of characters arranged in rows and columns.",
   "GRID LAYOUT:",
   "- 5 rows (numbered 1-5 from top to bottom)",
   "- 4 columns (lettered A-D from left to right)",
   "- Each cell contains a character with their name and occupation"]

/-- A DOM card element as `parseCharacterCard` (content script) queries it:
the text content of its `.coord`, `.name h3`, `.profession` and `.hint`
children when present, and its class list. -/
structure CardElem where
  coordText : Option String
  nameText : Option String
  professionText : Option String
  classes : List String
  hintText : Option String
deriving DecidableEq, Repr

/-- The character record `parseCharacterCard` builds. -/
structure ParsedCharacter where
  name : String
  profession : String
  coord : String
  label : String
  hint : Option String
deriving DecidableEq, Repr

/-- `parseCharacterCard` (content script): null when the card lacks a
coordinate, name or profession element; label defaults to "unknown" and
becomes "innocent"/"criminal" only for a card with the `flipped` class and
the matching class. -/
def parseCharacterCard (card : CardElem) : Option ParsedCharacter :=
  match card.coordText with
  | none => none
  | some coordT =>
    match card.nameText with
    | none => none
    | some nameT =>
      match card.professionText with
      | none => none
      | some profT =>
        let label :=
          if card.classes.contains "flipped" then
            if card.classes.contains "innocent" then "innocent"
            else if card.classes.contains "criminal" then "criminal"
            else "unknown"
          else "unknown"
        some { name := jsTrim nameT, profession := jsTrim profT, coord := jsTrim coordT,
               label := label, hint := card.hintText.map (fun h => jsTrim h) }

/-- A card in the grid: either a DOM card element, or a card whose parsing
throws (modelling the try/catch in `parseGameState`). -/
inductive CardNode where
  | node (c : CardElem)
  | throwing (msg : String)
deriving DecidableEq, Repr

/-- A page as `parseGameState` queries it: the `.card-grid` container and
its card elements, when the container exists. -/
structure Page where
  cardGrid : Option (List CardNode)
deriving DecidableEq, Repr

/-- Parsing one card: the card's parse result, or the thrown error. -/
def tryParseCard : CardNode → Except String (Option ParsedCharacter)
  | .node c => .ok (parseCharacterCard c)
  | .throwing msg => .error msg

/-- `parseGameState` (content script): throws only when the `.card-grid`
container is absent; each card whose parsing throws or yields null is
skipped and the loop continues. -/
def parseGameState (page : Page) : Except String (List ParsedCharacter) :=
  match page.cardGrid with
  | none => .error "Game grid not found on page"
  | some cards =>
    .ok (cards.foldl (fun acc card =>
      match tryParseCard card with
      | .ok (some ch) => acc ++ [ch]
      | _ => acc) [])

/-- The successfully parsed characters of a card list, in document
order. -/
def successfulCards (cards : List CardNode) : List ParsedCharacter :=
  cards.filterMap (fun card =>
    match tryParseCard card with
    | .ok (some ch) => some ch
    | _ => none)

/-- Solver scenario A of the design document: a 2-by-1 board, entity A
resolved Criminal at (0,0), entity B unresolved at (1,0). -/
def scenarioBoard : Board :=
  ⟨2, 1, [⟨"A", "detective", ⟨0, 0⟩, .known .criminal⟩,
          ⟨"B", "clerk", ⟨1, 0⟩, .unresolved⟩]⟩

/-- Scenario A's clue attached to A: Equal(Count(Filter(Neighbors(
Character("A")), HasLabel(Criminal))), Literal(0)). -/
def scenarioClue : Expr :=
  .Equal (.Count (.Filter (.Neighbors (.Character "A")) (.HasLabel none .criminal)))
    (.Literal (.num 0))

/-- A fully resolved 1-by-1 board (no unresolved entities). -/
def resolvedBoard : Board :=
  ⟨1, 1, [⟨"A", "detective", ⟨0, 0⟩, .known .innocent⟩]⟩

/-- A clue that is false on every trial board. -/
def falseClue : Expr :=
  .Literal (.bool false)

/-- A board of arbitrary positive dimensions holding a single unresolved
entity at the origin. -/
def singleBoard (rows cols : Nat) : Board :=
  ⟨rows, cols, [⟨"A", "detective", ⟨0, 0⟩, .unresolved⟩]⟩

/-- A clue forcing the single entity of `singleBoard` to be Criminal. -/
def singleClue : Expr :=
  .HasLabel (some (.Character "A")) .criminal

/-- The total label function a candidate assignment denotes. -/
def funOf (σ : Assign) : String → Label :=
  fun n => (lookupA σ n).getD .innocent

/-- The candidate assignment a total label function denotes on a name
list. -/
def assignOf (ns : List String) (f : String → Label) : Assign :=
  ns.map (fun n => (n, f n))

/-- The tie-break property: every forced entity other than this one sits
strictly later in row-major position order (lowest row first, then lowest
column). -/
def RmFirstAmongForced (b : Board) (clues : List Expr) (n : String) : Prop :=
  ∀ m lm, Forced b clues m lm → m = n ∨
    ∃ en em, entityNamed b n = some en ∧ entityNamed b m = some em ∧ rmLt en.pos em.pos

/-- Two boards agree: same dimensions, entity lists of the same shape
(names, professions, positions, in order), and identical label-state on
every entity whose name lies in the given set. -/
def AgreeOn (M : List String) (b1 b2 : Board) : Prop :=
  b1.rows = b2.rows ∧ b1.cols = b2.cols ∧
  List.Forall₂ (fun e1 e2 => e1.name = e2.name ∧ e1.profession = e2.profession ∧
    e1.pos = e2.pos ∧ (e1.name ∈ M → e1.state = e2.state)) b1.entities b2.entities

/-- All total extensions of a partial assignment over the remaining
names. -/
def extensions (σ : Assign) (rest : List String) : List Assign :=
  (allAssignments rest).map (fun δ => σ ++ δ)

theorem exprSize_pos : ∀ e : Expr, 1 ≤ exprSize e := by
  intro e
  cases e <;> simp only [exprSize] <;> omega

theorem exprSize_le_of_mem : ∀ (es : List Expr) (e : Expr), e ∈ es → exprSize e ≤ exprListSize es := by
  intro es
  induction es with
  | nil => intro e h; cases h
  | cons x xs ih =>
    intro e h
    rcases List.mem_cons.mp h with h1 | h2
    · subst h1; simp only [exprListSize]; omega
    · have := ih e h2; simp only [exprListSize]; omega

theorem evalSeq_congr {f g : Expr → Result} :
    ∀ {es : List Expr}, (∀ e ∈ es, f e = g e) → evalSeq f es = evalSeq g es := by
  intro es
  induction es with
  | nil => intro _; rfl
  | cons x xs ih =>
    intro h
    simp only [evalSeq]
    rw [h x (List.mem_cons_self x xs), ih (fun e he => h e (List.mem_cons_of_mem x he))]

/-- Any two sufficient fuel budgets evaluate an expression identically. -/
theorem evalF_irrel : ∀ (n m : Nat) (b : Board) (bind : Option Pos) (e : Expr),
    exprSize e ≤ n → exprSize e ≤ m → evalF n b bind e = evalF m b bind e := by
  intro n
  induction n with
  | zero =>
    intro m b bind e hn _
    exact absurd hn (by have := exprSize_pos e; omega)
  | succ n ih =>
    intro m b bind e hn hm
    cases m with
    | zero => exact absurd hm (by have := exprSize_pos e; omega)
    | succ m =>
      have step1 : ∀ e1 : Expr, exprSize e1 + 1 ≤ exprSize e →
          evalF n b bind e1 = evalF m b bind e1 := by
        intro e1 hlt
        exact ih m b bind e1 (by omega) (by omega)
      cases e with
      | Literal v => rfl
      | Character nm => rfl
      | AllCharacters => rfl
      | EdgePositions => rfl
      | Above e1 => simp only [evalF]; rw [step1 e1 (by simp only [exprSize]; omega)]
      | Below e1 => simp only [evalF]; rw [step1 e1 (by simp only [exprSize]; omega)]
      | LeftOf e1 => simp only [evalF]; rw [step1 e1 (by simp only [exprSize]; omega)]
      | RightOf e1 => simp only [evalF]; rw [step1 e1 (by simp only [exprSize]; omega)]
      | Neighbors e1 => simp only [evalF]; rw [step1 e1 (by simp only [exprSize]; omega)]
      | Filter src pred =>
        have hsrc : evalF n b bind src = evalF m b bind src := by
          simp only [exprSize] at hn hm
          exact ih m b bind src (by omega) (by omega)
        have hpred : (fun p => evalF n b (some p) pred) = (fun p => evalF m b (some p) pred) := by
          funext p
          simp only [exprSize] at hn hm
          exact ih m b (some p) pred (by omega) (by omega)
        simp only [evalF]
        rw [hsrc, hpred]
      | Intersection es =>
        simp only [evalF]
        simp only [exprSize] at hn hm
        rw [evalSeq_congr (fun e he =>
          ih m b bind e (by have := exprSize_le_of_mem es e he; omega)
            (by have := exprSize_le_of_mem es e he; omega))]
      | Union es =>
        simp only [evalF]
        simp only [exprSize] at hn hm
        rw [evalSeq_congr (fun e he =>
          ih m b bind e (by have := exprSize_le_of_mem es e he; omega)
            (by have := exprSize_le_of_mem es e he; omega))]
      | And es =>
        simp only [evalF]
        simp only [exprSize] at hn hm
        rw [evalSeq_congr (fun e he =>
          ih m b bind e (by have := exprSize_le_of_mem es e he; omega)
            (by have := exprSize_le_of_mem es e he; omega))]
      | Or es =>
        simp only [evalF]
        simp only [exprSize] at hn hm
        rw [evalSeq_congr (fun e he =>
          ih m b bind e (by have := exprSize_le_of_mem es e he; omega)
            (by have := exprSize_le_of_mem es e he; omega))]
      | Not e1 => simp only [evalF]; rw [step1 e1 (by simp only [exprSize]; omega)]
      | Count e1 => simp only [evalF]; rw [step1 e1 (by simp only [exprSize]; omega)]
      | Sum e1 => simp only [evalF]; rw [step1 e1 (by simp only [exprSize]; omega)]
      | HasLabel t lab =>
        cases t with
        | none => rfl
        | some e1 =>
          simp only [evalF, Option.map]
          rw [step1 e1 (by simp only [exprSize, exprOptSize]; omega)]
      | HasProfession t prof =>
        cases t with
        | none => rfl
        | some e1 =>
          simp only [evalF, Option.map]
          rw [step1 e1 (by simp only [exprSize, exprOptSize]; omega)]
      | IsEdge t =>
        cases t with
        | none => rfl
        | some e1 =>
          simp only [evalF, Option.map]
          rw [step1 e1 (by simp only [exprSize, exprOptSize]; omega)]
      | IsUnknown t =>
        cases t with
        | none => rfl
        | some e1 =>
          simp only [evalF, Option.map]
          rw [step1 e1 (by simp only [exprSize, exprOptSize]; omega)]
      | Equal a c =>
        simp only [evalF]
        rw [step1 a (by simp only [exprSize]; omega), step1 c (by simp only [exprSize]; omega)]
      | Greater a c =>
        simp only [evalF]
        rw [step1 a (by simp only [exprSize]; omega), step1 c (by simp only [exprSize]; omega)]
      | GreaterEqual a c =>
        simp only [evalF]
        rw [step1 a (by simp only [exprSize]; omega), step1 c (by simp only [exprSize]; omega)]
      | Less a c =>
        simp only [evalF]
        rw [step1 a (by simp only [exprSize]; omega), step1 c (by simp only [exprSize]; omega)]
      | LessEqual a c =>
        simp only [evalF]
        rw [step1 a (by simp only [exprSize]; omega), step1 c (by simp only [exprSize]; omega)]
      | IsOdd e1 => simp only [evalF]; rw [step1 e1 (by simp only [exprSize]; omega)]
      | IsEven e1 => simp only [evalF]; rw [step1 e1 (by simp only [exprSize]; omega)]
      | AreConnected e1 => simp only [evalF]; rw [step1 e1 (by simp only [exprSize]; omega)]
      | above' nm => rfl
      | below' nm => rfl
      | left_of nm => rfl
      | right_of nm => rfl
      | neighbors_of nm => rfl
      | criminals s => rfl
      | innocents s => rfl
      | count_criminals s => rfl
      | count_innocents s => rfl

/-- Sufficient fuel computes `evaluate`. -/
theorem evalF_eq_evaluate (n : Nat) (b : Board) (bind : Option Pos) (e : Expr)
    (h : exprSize e ≤ n) : evalF n b bind e = evaluate b bind e :=
  evalF_irrel n (exprSize e) b bind e h le_rfl

/-- Expansion with sufficient fuel lands in canonical trees. -/
theorem canonical_expandF : ∀ (n : Nat) (e : Expr), exprSize e ≤ n → Canonical (expandF n e) := by
  intro n
  induction n with
  | zero =>
    intro e hn
    exact absurd hn (by have := exprSize_pos e; omega)
  | succ n ih =>
    intro e hn
    have hsub : ∀ e1 : Expr, exprSize e1 + 1 ≤ exprSize e → Canonical (expandF n e1) := by
      intro e1 hlt
      exact ih e1 (by omega)
    cases e with
    | Literal v => exact .Literal v
    | Character nm => exact .Character nm
    | AllCharacters => exact .AllCharacters
    | EdgePositions => exact .EdgePositions
    | Above e1 => exact .Above (hsub e1 (by simp only [exprSize]; omega))
    | Below e1 => exact .Below (hsub e1 (by simp only [exprSize]; omega))
    | LeftOf e1 => exact .LeftOf (hsub e1 (by simp only [exprSize]; omega))
    | RightOf e1 => exact .RightOf (hsub e1 (by simp only [exprSize]; omega))
    | Neighbors e1 => exact .Neighbors (hsub e1 (by simp only [exprSize]; omega))
    | Filter src pred =>
      exact .Filter (hsub src (by simp only [exprSize]; omega))
        (hsub pred (by simp only [exprSize]; omega))
    | Intersection es =>
      refine .Intersection (fun x hx => ?_)
      obtain ⟨y, hy, rfl⟩ := List.mem_map.mp hx
      simp only [exprSize] at hn
      exact ih y (by have := exprSize_le_of_mem es y hy; omega)
    | Union es =>
      refine .Union (fun x hx => ?_)
      obtain ⟨y, hy, rfl⟩ := List.mem_map.mp hx
      simp only [exprSize] at hn
      exact ih y (by have := exprSize_le_of_mem es y hy; omega)
    | And es =>
      refine .And (fun x hx => ?_)
      obtain ⟨y, hy, rfl⟩ := List.mem_map.mp hx
      simp only [exprSize] at hn
      exact ih y (by have := exprSize_le_of_mem es y hy; omega)
    | Or es =>
      refine .Or (fun x hx => ?_)
      obtain ⟨y, hy, rfl⟩ := List.mem_map.mp hx
      simp only [exprSize] at hn
      exact ih y (by have := exprSize_le_of_mem es y hy; omega)
    | Not e1 => exact .Not (hsub e1 (by simp only [exprSize]; omega))
    | Count e1 => exact .Count (hsub e1 (by simp only [exprSize]; omega))
    | Sum e1 => exact .Sum (hsub e1 (by simp only [exprSize]; omega))
    | HasLabel t lab =>
      cases t with
      | none => exact .HasLabel lab (fun x hx => by cases hx)
      | some e1 =>
        refine .HasLabel lab (fun x hx => ?_)
        simp only [Option.map, Option.mem_def, Option.some_inj] at hx
        subst hx
        exact hsub e1 (by simp only [exprSize, exprOptSize]; omega)
    | HasProfession t prof =>
      cases t with
      | none => exact .HasProfession prof (fun x hx => by cases hx)
      | some e1 =>
        refine .HasProfession prof (fun x hx => ?_)
        simp only [Option.map, Option.mem_def, Option.some_inj] at hx
        subst hx
        exact hsub e1 (by simp only [exprSize, exprOptSize]; omega)
    | IsEdge t =>
      cases t with
      | none => exact .IsEdge (fun x hx => by cases hx)
      | some e1 =>
        refine .IsEdge (fun x hx => ?_)
        simp only [Option.map, Option.mem_def, Option.some_inj] at hx
        subst hx
        exact hsub e1 (by simp only [exprSize, exprOptSize]; omega)
    | IsUnknown t =>
      cases t with
      | none => exact .IsUnknown (fun x hx => by cases hx)
      | some e1 =>
        refine .IsUnknown (fun x hx => ?_)
        simp only [Option.map, Option.mem_def, Option.some_inj] at hx
        subst hx
        exact hsub e1 (by simp only [exprSize, exprOptSize]; omega)
    | Equal a c =>
      exact .Equal (hsub a (by simp only [exprSize]; omega))
        (hsub c (by simp only [exprSize]; omega))
    | Greater a c =>
      exact .Greater (hsub a (by simp only [exprSize]; omega))
        (hsub c (by simp only [exprSize]; omega))
    | GreaterEqual a c =>
      exact .GreaterEqual (hsub a (by simp only [exprSize]; omega))
        (hsub c (by simp only [exprSize]; omega))
    | Less a c =>
      exact .Less (hsub a (by simp only [exprSize]; omega))
        (hsub c (by simp only [exprSize]; omega))
    | LessEqual a c =>
      exact .LessEqual (hsub a (by simp only [exprSize]; omega))
        (hsub c (by simp only [exprSize]; omega))
    | IsOdd e1 => exact .IsOdd (hsub e1 (by simp only [exprSize]; omega))
    | IsEven e1 => exact .IsEven (hsub e1 (by simp only [exprSize]; omega))
    | AreConnected e1 => exact .AreConnected (hsub e1 (by simp only [exprSize]; omega))
    | above' nm => exact .Above (.Character nm)
    | below' nm => exact .Below (.Character nm)
    | left_of nm => exact .LeftOf (.Character nm)
    | right_of nm => exact .RightOf (.Character nm)
    | neighbors_of nm => exact .Neighbors (.Character nm)
    | criminals s =>
      exact .Filter (hsub s (by simp only [exprSize]; omega))
        (.HasLabel .criminal (fun x hx => by cases hx))
    | innocents s =>
      exact .Filter (hsub s (by simp only [exprSize]; omega))
        (.HasLabel .innocent (fun x hx => by cases hx))
    | count_criminals s =>
      exact .Count (.Filter (hsub s (by simp only [exprSize]; omega))
        (.HasLabel .criminal (fun x hx => by cases hx)))
    | count_innocents s =>
      exact .Count (.Filter (hsub s (by simp only [exprSize]; omega))
        (.HasLabel .innocent (fun x hx => by cases hx)))

/-- Re-expanding a canonical tree is a no-op, for any fuel. -/
theorem expandF_of_canonical {e : Expr} (h : Canonical e) : ∀ n : Nat, expandF n e = e := by
  induction h with
  | Literal v => intro n; cases n <;> rfl
  | Character nm => intro n; cases n <;> rfl
  | AllCharacters => intro n; cases n <;> rfl
  | EdgePositions => intro n; cases n <;> rfl
  | Above _ ih =>
    intro n; cases n with
    | zero => rfl
    | succ n => simp only [expandF]; rw [ih n]
  | Below _ ih =>
    intro n; cases n with
    | zero => rfl
    | succ n => simp only [expandF]; rw [ih n]
  | LeftOf _ ih =>
    intro n; cases n with
    | zero => rfl
    | succ n => simp only [expandF]; rw [ih n]
  | RightOf _ ih =>
    intro n; cases n with
    | zero => rfl
    | succ n => simp only [expandF]; rw [ih n]
  | Neighbors _ ih =>
    intro n; cases n with
    | zero => rfl
    | succ n => simp only [expandF]; rw [ih n]
  | Filter _ _ ih1 ih2 =>
    intro n; cases n with
    | zero => rfl
    | succ n => simp only [expandF]; rw [ih1 n, ih2 n]
  | Intersection _ ih =>
    intro n; cases n with
    | zero => rfl
    | succ n =>
      simp only [expandF]
      rw [List.map_congr_left (fun x hx => ih x hx n)]
      simp
  | Union _ ih =>
    intro n; cases n with
    | zero => rfl
    | succ n =>
      simp only [expandF]
      rw [List.map_congr_left (fun x hx => ih x hx n)]
      simp
  | And _ ih =>
    intro n; cases n with
    | zero => rfl
    | succ n =>
      simp only [expandF]
      rw [List.map_congr_left (fun x hx => ih x hx n)]
      simp
  | Or _ ih =>
    intro n; cases n with
    | zero => rfl
    | succ n =>
      simp only [expandF]
      rw [List.map_congr_left (fun x hx => ih x hx n)]
      simp
  | Not _ ih =>
    intro n; cases n with
    | zero => rfl
    | succ n => simp only [expandF]; rw [ih n]
  | Count _ ih =>
    intro n; cases n with
    | zero => rfl
    | succ n => simp only [expandF]; rw [ih n]
  | Sum _ ih =>
    intro n; cases n with
    | zero => rfl
    | succ n => simp only [expandF]; rw [ih n]
  | @HasLabel t lab _ ih =>
    intro n; cases n with
    | zero => rfl
    | succ n =>
      cases t with
      | none => rfl
      | some e1 => simp only [expandF, Option.map]; rw [ih e1 rfl n]
  | @HasProfession t prof _ ih =>
    intro n; cases n with
    | zero => rfl
    | succ n =>
      cases t with
      | none => rfl
      | some e1 => simp only [expandF, Option.map]; rw [ih e1 rfl n]
  | @IsEdge t _ ih =>
    intro n; cases n with
    | zero => rfl
    | succ n =>
      cases t with
      | none => rfl
      | some e1 => simp only [expandF, Option.map]; rw [ih e1 rfl n]
  | @IsUnknown t _ ih =>
    intro n; cases n with
    | zero => rfl
    | succ n =>
      cases t with
      | none => rfl
      | some e1 => simp only [expandF, Option.map]; rw [ih e1 rfl n]
  | Equal _ _ ih1 ih2 =>
    intro n; cases n with
    | zero => rfl
    | succ n => simp only [expandF]; rw [ih1 n, ih2 n]
  | Greater _ _ ih1 ih2 =>
    intro n; cases n with
    | zero => rfl
    | succ n => simp only [expandF]; rw [ih1 n, ih2 n]
  | GreaterEqual _ _ ih1 ih2 =>
    intro n; cases n with
    | zero => rfl
    | succ n => simp only [expandF]; rw [ih1 n, ih2 n]
  | Less _ _ ih1 ih2 =>
    intro n; cases n with
    | zero => rfl
    | succ n => simp only [expandF]; rw [ih1 n, ih2 n]
  | LessEqual _ _ ih1 ih2 =>
    intro n; cases n with
    | zero => rfl
    | succ n => simp only [expandF]; rw [ih1 n, ih2 n]
  | IsOdd _ ih =>
    intro n; cases n with
    | zero => rfl
    | succ n => simp only [expandF]; rw [ih n]
  | IsEven _ ih =>
    intro n; cases n with
    | zero => rfl
    | succ n => simp only [expandF]; rw [ih n]
  | AreConnected _ ih =>
    intro n; cases n with
    | zero => rfl
    | succ n => simp only [expandF]; rw [ih n]

/-- The expansion of any expression is canonical. -/
theorem canonical_expand (e : Expr) : Canonical (expand e) :=
  canonical_expandF (exprSize e) e le_rfl

/-- Re-expanding a canonical tree is a no-op. -/
theorem expand_of_canonical {e : Expr} (h : Canonical e) : expand e = e :=
  expandF_of_canonical h (exprSize e)

/-- Sugar expansion is idempotent. -/
theorem expand_expand (e : Expr) : expand (expand e) = expand e :=
  expand_of_canonical (canonical_expand e)

/-- A board with no Unresolved entity. -/
def FullyResolved (b : Board) : Prop :=
  ∀ e ∈ b.entities, e.state ≠ .unresolved

/-- The result never reports an Unresolved position. -/
def URfreeE {α : Type} (x : Except EvalError α) : Prop :=
  ∀ p : Pos, x ≠ .error (.referenceError (.unresolvedPosition p))

theorem URfreeE_ok {α : Type} (v : α) : URfreeE (.ok v) := by
  intro p; simp

theorem URfreeE_typeError {α : Type} (msg : String) :
    URfreeE (α := α) (.error (.typeError msg)) := by
  intro p; simp

theorem URfreeE_arityError {α : Type} (msg : String) :
    URfreeE (α := α) (.error (.arityError msg)) := by
  intro p; simp

theorem URfreeE_bind {α β : Type} {x : Except EvalError α} {f : α → Except EvalError β}
    (hx : URfreeE x) (hf : ∀ v, URfreeE (f v)) : URfreeE (x >>= f) := by
  cases x with
  | error er =>
    intro p h
    rw [show (Except.error er >>= f : Except EvalError β) = Except.error er from rfl] at h
    exact hx p (by rw [Except.error.inj h])
  | ok v =>
    exact hf v

theorem URfreeE_error_of {α : Type} {er : EvalError} (x : Except EvalError α)
    (hx : URfreeE x) (h : x = .error er) : ∀ p, er ≠ .referenceError (.unresolvedPosition p) := by
  intro p hc
  exact hx p (by rw [h, hc])

theorem URfreeE_dirStep {f : Pos → List Pos} {r : Result} (hr : URfreeE r) :
    URfreeE (dirStep f r) := by
  cases r with
  | error er =>
    intro p h
    exact hr p (by simpa [dirStep] using h)
  | ok v => cases v <;> intro p <;> simp [dirStep]

theorem URfreeE_evalSeq {f : Expr → Result} {es : List Expr}
    (h : ∀ e ∈ es, URfreeE (f e)) : URfreeE (evalSeq f es) := by
  induction es with
  | nil => exact URfreeE_ok []
  | cons x xs ih =>
    simp only [evalSeq]
    refine URfreeE_bind (h x (List.mem_cons_self x xs)) (fun v => ?_)
    refine URfreeE_bind (ih (fun e he => h e (List.mem_cons_of_mem x he))) (fun vs => ?_)
    exact URfreeE_ok _

theorem URfreeE_allBools (vs : List Value) : URfreeE (allBools vs) := by
  induction vs with
  | nil => exact URfreeE_ok []
  | cons v vs ih =>
    cases v with
    | bool bv =>
      simp only [allBools]
      exact URfreeE_bind ih (fun _ => URfreeE_ok _)
    | pos _ => exact URfreeE_typeError _
    | posSet _ => exact URfreeE_typeError _
    | num _ => exact URfreeE_typeError _
    | label _ => exact URfreeE_typeError _
    | profession _ => exact URfreeE_typeError _

theorem URfreeE_allPosSets (vs : List Value) : URfreeE (allPosSets vs) := by
  induction vs with
  | nil => exact URfreeE_ok []
  | cons v vs ih =>
    cases v with
    | posSet s =>
      simp only [allPosSets]
      exact URfreeE_bind ih (fun _ => URfreeE_ok _)
    | pos _ => exact URfreeE_typeError _
    | bool _ => exact URfreeE_typeError _
    | num _ => exact URfreeE_typeError _
    | label _ => exact URfreeE_typeError _
    | profession _ => exact URfreeE_typeError _

theorem URfreeE_asPosSet (v : Value) : URfreeE (asPosSet v) := by
  cases v <;> first
    | exact URfreeE_ok _
    | exact URfreeE_typeError _

theorem URfreeE_asNum (v : Value) : URfreeE (asNum v) := by
  cases v <;> first
    | exact URfreeE_ok _
    | exact URfreeE_typeError _

theorem URfreeE_filterGo {pf : Pos → Result} (hpf : ∀ p, URfreeE (pf p)) :
    ∀ ps : List Pos, URfreeE (filterGo pf ps) := by
  intro ps
  induction ps with
  | nil => exact URfreeE_ok []
  | cons p rest ih =>
    simp only [filterGo]
    refine URfreeE_bind (hpf p) (fun v => ?_)
    cases v with
    | bool bv =>
      cases bv with
      | true => exact URfreeE_bind ih (fun _ => URfreeE_ok _)
      | false => exact ih
    | pos _ => exact URfreeE_typeError _
    | posSet _ => exact URfreeE_typeError _
    | num _ => exact URfreeE_typeError _
    | label _ => exact URfreeE_typeError _
    | profession _ => exact URfreeE_typeError _

theorem URfreeE_filterStep {srcR : Result} {pf : Pos → Result}
    (hs : URfreeE srcR) (hpf : ∀ p, URfreeE (pf p)) : URfreeE (filterStep srcR pf) := by
  refine URfreeE_bind hs (fun v => ?_)
  refine URfreeE_bind (URfreeE_asPosSet v) (fun ps => ?_)
  exact URfreeE_bind (URfreeE_filterGo hpf (canonPS ps)) (fun _ => URfreeE_ok _)

theorem URfreeE_andStep {rs : Except EvalError (List Value)} (h : URfreeE rs) :
    URfreeE (andStep rs) := by
  refine URfreeE_bind h (fun vs => ?_)
  exact URfreeE_bind (URfreeE_allBools vs) (fun _ => URfreeE_ok _)

theorem URfreeE_orStep {rs : Except EvalError (List Value)} (h : URfreeE rs) :
    URfreeE (orStep rs) := by
  refine URfreeE_bind h (fun vs => ?_)
  exact URfreeE_bind (URfreeE_allBools vs) (fun _ => URfreeE_ok _)

theorem URfreeE_unionStep {rs : Except EvalError (List Value)} (h : URfreeE rs) :
    URfreeE (unionStep rs) := by
  refine URfreeE_bind h (fun vs => ?_)
  exact URfreeE_bind (URfreeE_allPosSets vs) (fun _ => URfreeE_ok _)

theorem URfreeE_interStep {rs : Except EvalError (List Value)} (h : URfreeE rs) :
    URfreeE (interStep rs) := by
  refine URfreeE_bind h (fun vs => ?_)
  refine URfreeE_bind (URfreeE_allPosSets vs) (fun ss => ?_)
  cases ss with
  | nil => exact URfreeE_arityError _
  | cons s rest => exact URfreeE_ok _

theorem URfreeE_notStep {r : Result} (hr : URfreeE r) : URfreeE (notStep r) := by
  cases r with
  | error er =>
    intro p h
    exact hr p (by simpa [notStep] using h)
  | ok v => cases v with
    | bool bv => exact URfreeE_ok _
    | pos _ => exact URfreeE_typeError _
    | posSet _ => exact URfreeE_typeError _
    | num _ => exact URfreeE_typeError _
    | label _ => exact URfreeE_typeError _
    | profession _ => exact URfreeE_typeError _

theorem URfreeE_countStep {r : Result} (hr : URfreeE r) : URfreeE (countStep r) := by
  cases r with
  | error er =>
    intro p h
    exact hr p (by simpa [countStep] using h)
  | ok v => cases v with
    | posSet ps => exact URfreeE_ok _
    | pos _ => exact URfreeE_typeError _
    | bool _ => exact URfreeE_typeError _
    | num _ => exact URfreeE_typeError _
    | label _ => exact URfreeE_typeError _
    | profession _ => exact URfreeE_typeError _

theorem URfreeE_sumStep {r : Result} (hr : URfreeE r) : URfreeE (sumStep r) := by
  cases r with
  | error er =>
    intro p h
    exact hr p (by simpa [sumStep] using h)
  | ok v => exact URfreeE_typeError _

theorem URfreeE_equalStep {r1 r2 : Result} (h1 : URfreeE r1) (h2 : URfreeE r2) :
    URfreeE (equalStep r1 r2) := by
  cases r1 with
  | error er =>
    intro p h
    exact h1 p (by simpa [equalStep] using h)
  | ok v1 =>
    cases r2 with
    | error er =>
      intro p h
      exact h2 p (by simpa [equalStep] using h)
    | ok v2 =>
      simp only [equalStep]
      cases valueEq v1 v2 with
      | none => exact URfreeE_typeError _
      | some r => exact URfreeE_ok _

theorem URfreeE_cmpStep {f : Int → Int → Bool} {r1 r2 : Result}
    (h1 : URfreeE r1) (h2 : URfreeE r2) : URfreeE (cmpStep f r1 r2) := by
  cases r1 with
  | error er =>
    intro p h
    exact h1 p (by simpa [cmpStep] using h)
  | ok v1 =>
    cases r2 with
    | error er =>
      intro p h
      exact h2 p (by simpa [cmpStep] using h)
    | ok v2 =>
      simp only [cmpStep]
      refine URfreeE_bind (URfreeE_asNum v1) (fun x => ?_)
      refine URfreeE_bind (URfreeE_asNum v2) (fun y => ?_)
      exact URfreeE_ok _

theorem URfreeE_parityStep {f : Int → Bool} {r : Result} (hr : URfreeE r) :
    URfreeE (parityStep f r) := by
  cases r with
  | error er =>
    intro p h
    exact hr p (by simpa [parityStep] using h)
  | ok v => cases v with
    | num m => exact URfreeE_ok _
    | pos _ => exact URfreeE_typeError _
    | posSet _ => exact URfreeE_typeError _
    | bool _ => exact URfreeE_typeError _
    | label _ => exact URfreeE_typeError _
    | profession _ => exact URfreeE_typeError _

theorem URfreeE_connStep {r : Result} (hr : URfreeE r) : URfreeE (connStep r) := by
  cases r with
  | error er =>
    intro p h
    exact hr p (by simpa [connStep] using h)
  | ok v => cases v with
    | posSet ps => exact URfreeE_ok _
    | pos _ => exact URfreeE_typeError _
    | bool _ => exact URfreeE_typeError _
    | num _ => exact URfreeE_typeError _
    | label _ => exact URfreeE_typeError _
    | profession _ => exact URfreeE_typeError _

theorem URfreeE_targetRes {bind : Option Pos} {t : Option Result}
    (ht : ∀ r ∈ t, URfreeE r) : URfreeE (targetRes bind t) := by
  cases t with
  | none =>
    cases bind with
    | some p => exact URfreeE_ok _
    | none => intro p; simp [targetRes]
  | some r =>
    simp only [targetRes]
    refine URfreeE_bind (ht r rfl) (fun v => ?_)
    cases v with
    | pos p => exact URfreeE_ok _
    | posSet _ => exact URfreeE_typeError _
    | bool _ => exact URfreeE_typeError _
    | num _ => exact URfreeE_typeError _
    | label _ => exact URfreeE_typeError _
    | profession _ => exact URfreeE_typeError _

theorem URfreeE_hasLabelStep {b : Board} (hb : FullyResolved b) (lab : Label)
    {tr : Except EvalError Pos} (ht : URfreeE tr) : URfreeE (hasLabelStep b lab tr) := by
  cases tr with
  | error er =>
    intro p h
    exact ht p (by simpa [hasLabelStep] using h)
  | ok q =>
    intro p
    simp only [hasLabelStep]
    cases hat : entityAtPos b q with
    | none => simp
    | some ent =>
      have hne : ent.state ≠ .unresolved := hb ent (List.mem_of_find?_eq_some hat)
      cases hst : ent.state with
      | known l => simp [hst]
      | unresolved => exact absurd hst hne

theorem URfreeE_hasProfessionStep {b : Board} (prof : String)
    {tr : Except EvalError Pos} (ht : URfreeE tr) : URfreeE (hasProfessionStep b prof tr) := by
  cases tr with
  | error er =>
    intro p h
    exact ht p (by simpa [hasProfessionStep] using h)
  | ok q =>
    simp only [hasProfessionStep]
    cases entityAtPos b q with
    | none => intro p; simp
    | some ent => exact URfreeE_ok _

theorem URfreeE_isEdgeStep {b : Board} {tr : Except EvalError Pos} (ht : URfreeE tr) :
    URfreeE (isEdgeStep b tr) := by
  cases tr with
  | error er =>
    intro p h
    exact ht p (by simpa [isEdgeStep] using h)
  | ok q => exact URfreeE_ok _

theorem URfreeE_isUnknownStep {b : Board} {tr : Except EvalError Pos} (ht : URfreeE tr) :
    URfreeE (isUnknownStep b tr) := by
  cases tr with
  | error er =>
    intro p h
    exact ht p (by simpa [isUnknownStep] using h)
  | ok q =>
    simp only [isUnknownStep]
    cases entityAtPos b q with
    | none => intro p; simp
    | some ent => exact URfreeE_ok _

/-- Evaluation against a fully resolved board never reports an Unresolved
position, whatever the expression, binding or fuel. -/
theorem evalF_URfree (b : Board) (hb : FullyResolved b) :
    ∀ (n : Nat) (bind : Option Pos) (e : Expr), URfreeE (evalF n b bind e) := by
  intro n
  induction n with
  | zero => intro bind e; exact URfreeE_typeError _
  | succ n ih =>
    intro bind e
    cases e with
    | Literal v => exact URfreeE_ok _
    | Character nm =>
      simp only [evalF]
      cases charPos b nm with
      | some p => exact URfreeE_ok _
      | none => intro p; simp
    | AllCharacters => exact URfreeE_ok _
    | EdgePositions => exact URfreeE_ok _
    | Above e1 => exact URfreeE_dirStep (ih bind e1)
    | Below e1 => exact URfreeE_dirStep (ih bind e1)
    | LeftOf e1 => exact URfreeE_dirStep (ih bind e1)
    | RightOf e1 => exact URfreeE_dirStep (ih bind e1)
    | Neighbors e1 => exact URfreeE_dirStep (ih bind e1)
    | Filter src pred => exact URfreeE_filterStep (ih bind src) (fun p => ih (some p) pred)
    | Intersection es =>
      simp only [evalF]
      by_cases hes : es.isEmpty <;> simp only [hes, if_true, if_false]
      · exact URfreeE_arityError _
      · exact URfreeE_interStep (URfreeE_evalSeq (fun e _ => ih bind e))
    | Union es =>
      simp only [evalF]
      by_cases hes : es.isEmpty <;> simp only [hes, if_true, if_false]
      · exact URfreeE_arityError _
      · exact URfreeE_unionStep (URfreeE_evalSeq (fun e _ => ih bind e))
    | And es =>
      simp only [evalF]
      by_cases hes : es.isEmpty <;> simp only [hes, if_true, if_false]
      · exact URfreeE_arityError _
      · exact URfreeE_andStep (URfreeE_evalSeq (fun e _ => ih bind e))
    | Or es =>
      simp only [evalF]
      by_cases hes : es.isEmpty <;> simp only [hes, if_true, if_false]
      · exact URfreeE_arityError _
      · exact URfreeE_orStep (URfreeE_evalSeq (fun e _ => ih bind e))
    | Not e1 => exact URfreeE_notStep (ih bind e1)
    | Count e1 => exact URfreeE_countStep (ih bind e1)
    | Sum e1 => exact URfreeE_sumStep (ih bind e1)
    | HasLabel t lab =>
      refine URfreeE_hasLabelStep hb lab (URfreeE_targetRes (fun r hr => ?_))
      cases t with
      | none => cases hr
      | some e1 =>
        simp only [Option.map, Option.mem_def, Option.some_inj] at hr
        subst hr
        exact ih bind e1
    | HasProfession t prof =>
      refine URfreeE_hasProfessionStep prof (URfreeE_targetRes (fun r hr => ?_))
      cases t with
      | none => cases hr
      | some e1 =>
        simp only [Option.map, Option.mem_def, Option.some_inj] at hr
        subst hr
        exact ih bind e1
    | IsEdge t =>
      refine URfreeE_isEdgeStep (URfreeE_targetRes (fun r hr => ?_))
      cases t with
      | none => cases hr
      | some e1 =>
        simp only [Option.map, Option.mem_def, Option.some_inj] at hr
        subst hr
        exact ih bind e1
    | IsUnknown t =>
      refine URfreeE_isUnknownStep (URfreeE_targetRes (fun r hr => ?_))
      cases t with
      | none => cases hr
      | some e1 =>
        simp only [Option.map, Option.mem_def, Option.some_inj] at hr
        subst hr
        exact ih bind e1
    | Equal a c => exact URfreeE_equalStep (ih bind a) (ih bind c)
    | Greater a c => exact URfreeE_cmpStep (ih bind a) (ih bind c)
    | GreaterEqual a c => exact URfreeE_cmpStep (ih bind a) (ih bind c)
    | Less a c => exact URfreeE_cmpStep (ih bind a) (ih bind c)
    | LessEqual a c => exact URfreeE_cmpStep (ih bind a) (ih bind c)
    | IsOdd e1 => exact URfreeE_parityStep (ih bind e1)
    | IsEven e1 => exact URfreeE_parityStep (ih bind e1)
    | AreConnected e1 => exact URfreeE_connStep (ih bind e1)
    | above' nm => exact URfreeE_typeError _
    | below' nm => exact URfreeE_typeError _
    | left_of nm => exact URfreeE_typeError _
    | right_of nm => exact URfreeE_typeError _
    | neighbors_of nm => exact URfreeE_typeError _
    | criminals s => exact URfreeE_typeError _
    | innocents s => exact URfreeE_typeError _
    | count_criminals s => exact URfreeE_typeError _
    | count_innocents s => exact URfreeE_typeError _

theorem allAssignments_keys : ∀ (ns : List String) (σ : Assign),
    σ ∈ allAssignments ns → σ.map (·.1) = ns := by
  intro ns
  induction ns with
  | nil =>
    intro σ h
    simp only [allAssignments, List.mem_singleton] at h
    subst h; rfl
  | cons n ns ih =>
    intro σ h
    simp only [allAssignments, List.mem_append, List.mem_map] at h
    rcases h with ⟨τ, hτ, rfl⟩ | ⟨τ, hτ, rfl⟩ <;> simp [ih τ hτ]

theorem lookupA_mem : ∀ (σ : Assign) (n : String),
    n ∈ σ.map (·.1) → ∃ l, lookupA σ n = some l := by
  intro σ
  induction σ with
  | nil => intro n h; simp at h
  | cons q σ ih =>
    intro n h
    by_cases hq : q.1 = n
    · exact ⟨q.2, by simp [lookupA, List.find?_cons_of_pos, hq]⟩
    · have hn : n ∈ σ.map (·.1) := by
        rcases List.mem_cons.mp h with h1 | h2
        · exact absurd h1.symm hq
        · exact h2
      obtain ⟨l, hl⟩ := ih n hn
      refine ⟨l, ?_⟩
      simp only [lookupA] at hl ⊢
      rw [List.find?_cons_of_neg _ (by simpa using hq)]
      exact hl

theorem mem_unresolvedNames {b : Board} {e : Entity}
    (he : e ∈ b.entities) (hu : e.state = .unresolved) : e.name ∈ unresolvedNames b := by
  have hf : e ∈ b.entities.filter (fun x => x.state == .unresolved) :=
    List.mem_filter.mpr ⟨he, by simp [hu]⟩
  have hs : e ∈ unresolvedEntities b :=
    (List.perm_insertionSort entRmLe _).mem_iff.mpr hf
  exact List.mem_map.mpr ⟨e, hs, rfl⟩

/-- A trial board constructed from an assignment covering all unresolved
names is fully resolved. -/
theorem applyAssign_fullyResolved (b : Board) (σ : Assign)
    (hσ : σ.map (·.1) = unresolvedNames b) : FullyResolved (applyAssign b σ) := by
  intro x hx
  simp only [applyAssign, List.mem_map] at hx
  obtain ⟨e, he, rfl⟩ := hx
  cases hst : e.state with
  | known l => simp [hst]
  | unresolved =>
    have hname : e.name ∈ unresolvedNames b := mem_unresolvedNames he hst
    rw [← hσ] at hname
    obtain ⟨l, hl⟩ := lookupA_mem σ e.name hname
    simp [hst, hl]

theorem applyFun_congr (b : Board) {f g : String → Label}
    (h : ∀ e ∈ b.entities, e.state = .unresolved → f e.name = g e.name) :
    applyFun b f = applyFun b g := by
  unfold applyFun
  congr 1
  apply List.map_congr_left
  intro e he
  cases hst : e.state with
  | known l => simp [hst]
  | unresolved => simp [hst, h e he hst]

theorem applyAssign_eq_applyFun (b : Board) (σ : Assign)
    (hcov : ∀ e ∈ b.entities, e.state = .unresolved → ∃ l, lookupA σ e.name = some l) :
    applyAssign b σ = applyFun b (funOf σ) := by
  unfold applyAssign applyFun
  congr 1
  apply List.map_congr_left
  intro e he
  cases hst : e.state with
  | known l => simp [hst]
  | unresolved =>
    obtain ⟨l, hl⟩ := hcov e he hst
    simp [hst, hl, funOf]

theorem keys_cover (b : Board) (σ : Assign) (hσ : σ.map (·.1) = unresolvedNames b) :
    ∀ e ∈ b.entities, e.state = .unresolved → ∃ l, lookupA σ e.name = some l := by
  intro e he hst
  apply lookupA_mem
  rw [hσ]
  exact mem_unresolvedNames he hst

theorem consistentB_iff (b : Board) (clues : List Expr) (σ : Assign)
    (hσ : σ.map (·.1) = unresolvedNames b) :
    consistentB b clues σ = true ↔ IsModel b clues (funOf σ) := by
  have hb : applyAssign b σ = applyFun b (funOf σ) :=
    applyAssign_eq_applyFun b σ (keys_cover b σ hσ)
  simp [consistentB, IsModel, List.all_eq_true, hb]

theorem lookupA_assignOf : ∀ (ns : List String) (f : String → Label) (n : String),
    n ∈ ns → lookupA (assignOf ns f) n = some (f n) := by
  intro ns f
  induction ns with
  | nil => intro n h; cases h
  | cons m ns ih =>
    intro n h
    by_cases hm : m = n
    · subst hm
      simp [assignOf, lookupA, List.find?_cons_of_pos]
    · rcases List.mem_cons.mp h with h1 | h2
      · exact absurd h1.symm hm
      · have hrec := ih n h2
        simp only [assignOf, List.map_cons, lookupA] at hrec ⊢
        rw [List.find?_cons_of_neg _ (by simpa using hm)]
        exact hrec

theorem assignOf_mem_allAssignments : ∀ (ns : List String) (f : String → Label),
    assignOf ns f ∈ allAssignments ns := by
  intro ns f
  induction ns with
  | nil => simp [assignOf, allAssignments]
  | cons n ns ih =>
    simp only [assignOf, List.map_cons, allAssignments, List.mem_append, List.mem_map]
    cases hf : f n with
    | innocent => exact Or.inl ⟨assignOf ns f, ih, by simp [assignOf, hf]⟩
    | criminal => exact Or.inr ⟨assignOf ns f, ih, by simp [assignOf, hf]⟩

theorem funOf_assignOf (ns : List String) (f : String → Label) (n : String) (h : n ∈ ns) :
    funOf (assignOf ns f) n = f n := by
  simp [funOf, lookupA_assignOf ns f n h]

theorem isModel_congr (b : Board) (clues : List Expr) {f g : String → Label}
    (h : ∀ e ∈ b.entities, e.state = .unresolved → f e.name = g e.name) :
    IsModel b clues f ↔ IsModel b clues g := by
  unfold IsModel
  rw [applyFun_congr b h]

theorem mem_models_keys {b : Board} {clues : List Expr} {σ : Assign}
    (h : σ ∈ models b clues) : σ.map (·.1) = unresolvedNames b :=
  allAssignments_keys _ σ (List.mem_filter.mp h).1

theorem isModel_of_mem_models {b : Board} {clues : List Expr} {σ : Assign}
    (h : σ ∈ models b clues) : IsModel b clues (funOf σ) :=
  (consistentB_iff b clues σ (mem_models_keys h)).mp (List.mem_filter.mp h).2

theorem assignOf_mem_models {b : Board} {clues : List Expr} {f : String → Label}
    (h : IsModel b clues f) : assignOf (unresolvedNames b) f ∈ models b clues := by
  apply List.mem_filter.mpr
  refine ⟨assignOf_mem_allAssignments _ f, ?_⟩
  have hk : (assignOf (unresolvedNames b) f).map (·.1) = unresolvedNames b := by
    simp only [assignOf, List.map_map]
    exact List.map_congr_left (fun a _ => rfl) |>.trans (List.map_id _)
  rw [consistentB_iff b clues _ hk]
  rw [isModel_congr b clues (g := f) (fun e he hst =>
    funOf_assignOf _ f e.name (mem_unresolvedNames he hst))]
  exact h

theorem models_ne_nil {b : Board} {clues : List Expr} (hm : ∃ f, IsModel b clues f) :
    models b clues ≠ [] := by
  obtain ⟨f, hf⟩ := hm
  intro h
  have hmem := assignOf_mem_models hf
  rw [h] at hmem
  cases hmem

theorem forcedIn_spec (ms : List Assign) (n : String) (l : Label)
    (hne : ms ≠ []) (hsome : ∀ σ ∈ ms, ∃ l', lookupA σ n = some l') :
    (forcedIn ms n = some l ↔ ∀ σ ∈ ms, lookupA σ n = some l) := by
  cases ms with
  | nil => exact absurd rfl hne
  | cons σ rest =>
    obtain ⟨l0, hl0⟩ := hsome σ (List.mem_cons_self σ rest)
    simp only [forcedIn, hl0]
    constructor
    · intro h
      by_cases hall : rest.all (fun τ => lookupA τ n == some l0) = true
      · rw [if_pos hall] at h
        have hl : l0 = l := Option.some.inj h
        subst hl
        intro τ hτ
        rcases List.mem_cons.mp hτ with rfl | hτ2
        · exact hl0
        · exact eq_of_beq (List.all_eq_true.mp hall τ hτ2)
      · rw [if_neg hall] at h
        cases h
    · intro h
      have h0 : l0 = l := by
        have := h σ (List.mem_cons_self σ rest)
        rw [hl0] at this
        exact Option.some.inj this
      subst h0
      rw [if_pos]
      apply List.all_eq_true.mpr
      intro τ hτ
      exact beq_of_eq (h τ (List.mem_cons_of_mem σ hτ))

theorem firstForced_eq_none_iff (ms : List Assign) :
    ∀ ns : List String, (firstForced ms ns = none ↔ ∀ n ∈ ns, forcedIn ms n = none) := by
  intro ns
  induction ns with
  | nil => simp [firstForced]
  | cons n ns ih =>
    simp only [firstForced]
    cases hfi : forcedIn ms n with
    | some l => simp [hfi]
    | none => simp [hfi, ih]

theorem firstForced_eq_some_split {ms : List Assign} :
    ∀ {ns : List String} {n : String} {l : Label}, firstForced ms ns = some (n, l) →
      ∃ pre post, ns = pre ++ n :: post ∧ (∀ m ∈ pre, forcedIn ms m = none) ∧
        forcedIn ms n = some l := by
  intro ns
  induction ns with
  | nil => intro n l h; cases h
  | cons m ns ih =>
    intro n l h
    simp only [firstForced] at h
    cases hfi : forcedIn ms m with
    | some l0 =>
      rw [hfi] at h
      simp only [Option.some.injEq, Prod.mk.injEq] at h
      obtain ⟨rfl, rfl⟩ := h
      exact ⟨[], ns, rfl, fun x hx => absurd hx (List.not_mem_nil x), hfi⟩
    | none =>
      rw [hfi] at h
      obtain ⟨pre, post, rfl, hpre, hn⟩ := ih h
      refine ⟨m :: pre, post, rfl, ?_, hn⟩
      intro x hx
      rcases List.mem_cons.mp hx with rfl | hx2
      · exact hfi
      · exact hpre x hx2

theorem firstForced_eq_some_of_split (ms : List Assign) :
    ∀ (pre : List String) (n : String) (post : List String) (l : Label),
      (∀ m ∈ pre, forcedIn ms m = none) → forcedIn ms n = some l →
      firstForced ms (pre ++ n :: post) = some (n, l) := by
  intro pre
  induction pre with
  | nil =>
    intro n post l _ hn
    simp [firstForced, hn]
  | cons m pre ih =>
    intro n post l hpre hn
    have hm : forcedIn ms m = none := hpre m (List.mem_cons_self m pre)
    simp only [List.cons_append, firstForced, hm]
    exact ih n post l (fun x hx => hpre x (List.mem_cons_of_mem m hx)) hn

theorem mem_of_mem_unresolvedEntities {b : Board} {x : Entity}
    (h : x ∈ unresolvedEntities b) : x ∈ b.entities := by
  have hm := (List.perm_insertionSort entRmLe _).mem_iff.mp h
  exact (List.mem_filter.mp hm).1

theorem state_of_mem_unresolvedEntities {b : Board} {x : Entity}
    (h : x ∈ unresolvedEntities b) : x.state = .unresolved := by
  have hm := (List.perm_insertionSort entRmLe _).mem_iff.mp h
  have := (List.mem_filter.mp hm).2
  simpa using this

theorem unresolvedNames_nodup (b : Board)
    (hnames : (b.entities.map Entity.name).Nodup) : (unresolvedNames b).Nodup := by
  have hsub : (b.entities.filter (fun e => e.state == .unresolved)).Sublist b.entities :=
    List.filter_sublist _
  have h1 : (((b.entities.filter (fun e => e.state == .unresolved)).map Entity.name)).Nodup :=
    (hsub.map Entity.name).nodup hnames
  have hperm : (unresolvedEntities b).Perm (b.entities.filter (fun e => e.state == .unresolved)) :=
    List.perm_insertionSort _ _
  have h2 := (hperm.map Entity.name).nodup_iff.mpr h1
  simpa [unresolvedNames] using h2

theorem find?_name_eq_some :
    ∀ l : List Entity, (l.map Entity.name).Nodup →
      ∀ x ∈ l, l.find? (fun e => e.name == x.name) = some x := by
  intro l
  induction l with
  | nil => intro _ x hx; cases hx
  | cons a l ih =>
    intro hnod x hx
    have hnod2 : a.name ∉ l.map Entity.name ∧ (l.map Entity.name).Nodup := by
      rw [List.map_cons] at hnod
      exact List.nodup_cons.mp hnod
    rcases List.mem_cons.mp hx with rfl | hx2
    · rw [List.find?_cons_of_pos _ (by simp)]
    · have hne : a.name ≠ x.name := by
        intro he
        exact hnod2.1 (by rw [he]; exact List.mem_map.mpr ⟨x, hx2, rfl⟩)
      rw [List.find?_cons_of_neg _ (by simpa using hne)]
      exact ih hnod2.2 x hx2

theorem entityNamed_of_mem {b : Board} (hnames : (b.entities.map Entity.name).Nodup)
    {x : Entity} (hx : x ∈ b.entities) : entityNamed b x.name = some x :=
  find?_name_eq_some b.entities hnames x hx

theorem rmLt_of_rmLe_ne {p q : Pos} (hle : rmLe p q) (hne : p ≠ q) : rmLt p q := by
  unfold rmLe at hle
  unfold rmLt
  have : p.row ≠ q.row ∨ p.col ≠ q.col := by
    by_contra hc
    push_neg at hc
    exact hne (by cases p; cases q; simp_all)
  omega

/-- In a row-major split of the unresolved names, the pivot's entity sits
strictly before the entity of every name after it. -/
theorem split_rmLt_post (b : Board)
    (hnames : (b.entities.map Entity.name).Nodup)
    (hpos : (b.entities.map Entity.pos).Nodup)
    {pre post : List String} {n m : String}
    (hsplit : unresolvedNames b = pre ++ n :: post) (hmm : m ∈ post) :
    ∃ en em, entityNamed b n = some en ∧ entityNamed b m = some em ∧ rmLt en.pos em.pos := by
  have hnodup : (unresolvedNames b).Nodup := unresolvedNames_nodup b hnames
  have hmn : m ≠ n := by
    rw [hsplit] at hnodup
    have h1 := (List.nodup_append.mp hnodup).2.1
    have h2 := List.nodup_cons.mp h1
    intro he
    exact h2.1 (he ▸ hmm)
  have hsplit2 : (unresolvedEntities b).map Entity.name = pre ++ n :: post := by
    simpa [unresolvedNames] using hsplit
  rw [List.map_eq_append_iff] at hsplit2
  obtain ⟨l1, l2, hents, hl1, hl2⟩ := hsplit2
  rw [List.map_eq_cons_iff] at hl2
  obtain ⟨x, l2t, hl2e, hxname, hl2t⟩ := hl2
  have hmm2 : m ∈ l2t.map Entity.name := by rw [hl2t]; exact hmm
  obtain ⟨y, hy, hyname⟩ := List.mem_map.mp hmm2
  have hsorted : List.Pairwise entRmLe (unresolvedEntities b) :=
    List.sorted_insertionSort entRmLe _
  rw [hents, hl2e] at hsorted
  have hxy : entRmLe x y :=
    (List.pairwise_cons.mp (List.pairwise_append.mp hsorted).2.1).1 y hy
  have hxmem : x ∈ b.entities :=
    mem_of_mem_unresolvedEntities (by rw [hents, hl2e]; exact List.mem_append_right _ (List.mem_cons_self x l2t))
  have hymem : y ∈ b.entities :=
    mem_of_mem_unresolvedEntities (by rw [hents, hl2e]; exact List.mem_append_right _ (List.mem_cons_of_mem x hy))
  have hxyne : x ≠ y := by
    intro he
    exact hmn (by rw [← hyname, ← he, hxname])
  have hposne : x.pos ≠ y.pos := by
    intro he
    exact hxyne (List.inj_on_of_nodup_map hpos hxmem hymem he)
  refine ⟨x, y, ?_, ?_, rmLt_of_rmLe_ne hxy hposne⟩
  · rw [← hxname]; exact entityNamed_of_mem hnames hxmem
  · rw [← hyname]; exact entityNamed_of_mem hnames hymem

/-- In a row-major split of the unresolved names, every name before the
pivot has its entity strictly before the pivot's entity. -/
theorem split_rmLt_pre (b : Board)
    (hnames : (b.entities.map Entity.name).Nodup)
    (hpos : (b.entities.map Entity.pos).Nodup)
    {pre post : List String} {n m : String}
    (hsplit : unresolvedNames b = pre ++ n :: post) (hmm : m ∈ pre) :
    ∃ em en, entityNamed b m = some em ∧ entityNamed b n = some en ∧ rmLt em.pos en.pos := by
  have hnodup : (unresolvedNames b).Nodup := unresolvedNames_nodup b hnames
  have hmn : m ≠ n := by
    rw [hsplit] at hnodup
    have hdisj := (List.nodup_append.mp hnodup).2.2
    intro he
    exact hdisj hmm (by rw [he]; exact List.mem_cons_self n post)
  have hsplit2 : (unresolvedEntities b).map Entity.name = pre ++ n :: post := by
    simpa [unresolvedNames] using hsplit
  rw [List.map_eq_append_iff] at hsplit2
  obtain ⟨l1, l2, hents, hl1, hl2⟩ := hsplit2
  rw [List.map_eq_cons_iff] at hl2
  obtain ⟨x, l2t, hl2e, hxname, hl2t⟩ := hl2
  have hmm2 : m ∈ l1.map Entity.name := by rw [hl1]; exact hmm
  obtain ⟨y, hy, hyname⟩ := List.mem_map.mp hmm2
  have hsorted : List.Pairwise entRmLe (unresolvedEntities b) :=
    List.sorted_insertionSort entRmLe _
  rw [hents, hl2e] at hsorted
  have hyx : entRmLe y x :=
    (List.pairwise_append.mp hsorted).2.2 y hy x (List.mem_cons_self x l2t)
  have hxmem : x ∈ b.entities :=
    mem_of_mem_unresolvedEntities (by rw [hents, hl2e]; exact List.mem_append_right _ (List.mem_cons_self x l2t))
  have hymem : y ∈ b.entities :=
    mem_of_mem_unresolvedEntities (by rw [hents, hl2e]; exact List.mem_append_left _ hy)
  have hxyne : y ≠ x := by
    intro he
    exact hmn (by rw [← hyname, he, hxname])
  have hposne : y.pos ≠ x.pos := by
    intro he
    exact hxyne (List.inj_on_of_nodup_map hpos hymem hxmem he)
  refine ⟨y, x, ?_, ?_, rmLt_of_rmLe_ne hyx hposne⟩
  · rw [← hyname]; exact entityNamed_of_mem hnames hymem
  · rw [← hxname]; exact entityNamed_of_mem hnames hxmem

theorem rmLt_asymm {p q : Pos} (h1 : rmLt p q) (h2 : rmLt q p) : False := by
  unfold rmLt at h1 h2
  omega

theorem forced_iff_forcedIn (b : Board) (clues : List Expr)
    (hm : ∃ f, IsModel b clues f) (n : String) (l : Label) (hn : n ∈ unresolvedNames b) :
    (Forced b clues n l ↔ forcedIn (models b clues) n = some l) := by
  have hne := models_ne_nil hm
  have hsome : ∀ σ ∈ models b clues, ∃ l', lookupA σ n = some l' := fun σ hσ =>
    lookupA_mem σ n (by rw [mem_models_keys hσ]; exact hn)
  rw [forcedIn_spec _ n l hne hsome]
  constructor
  · intro hF σ hσ
    obtain ⟨l', hl'⟩ := hsome σ hσ
    have hfun : funOf σ n = l' := by simp [funOf, hl']
    have hval := hF.2 (funOf σ) (isModel_of_mem_models hσ)
    have hll : l' = l := by rw [← hfun]; exact hval
    rw [hl', hll]
  · intro hall
    refine ⟨hn, fun f hf => ?_⟩
    have hmem := assignOf_mem_models hf
    have hx := hall _ hmem
    rw [lookupA_assignOf _ f n hn] at hx
    exact Option.some.inj hx

/-- C1: over boards with unique names and positions and at least one
consistent model, the deduction solver returns CERTAIN_MOVE(e, L) iff e is
an unresolved entity assigned L in every consistent model and every other
forced entity sits strictly later in row-major position order; when
consistent models exist but nothing is forced it reports NO_CERTAIN_MOVE
(and conversely). -/
theorem c1_solver_certainty (b : Board) (clues : List Expr)
    (hnames : (b.entities.map Entity.name).Nodup)
    (hpos : (b.entities.map Entity.pos).Nodup)
    (hm : ∃ f, IsModel b clues f) :
    (∀ n l, solve b clues = .CERTAIN_MOVE n l ↔
        Forced b clues n l ∧ RmFirstAmongForced b clues n) ∧
    (solve b clues = .NO_CERTAIN_MOVE ↔ ∀ n l, ¬ Forced b clues n l) := by
  have hne := models_ne_nil hm
  by_cases hnil : (unresolvedNames b).isEmpty = true
  · have hsolve : solve b clues = .NO_CERTAIN_MOVE := by
      unfold solve
      rw [if_pos hnil]
    have hnil2 : unresolvedNames b = [] := List.isEmpty_iff.mp hnil
    constructor
    · intro n l
      constructor
      · intro h
        rw [hsolve] at h
        cases h
      · rintro ⟨⟨hmem, _⟩, _⟩
        rw [hnil2] at hmem
        cases hmem
    · constructor
      · intro _ n l hF
        have hmem := hF.1
        rw [hnil2] at hmem
        cases hmem
      · intro _
        exact hsolve
  · have hnil' : (unresolvedNames b).isEmpty = false := by
      cases h' : (unresolvedNames b).isEmpty
      · rfl
      · exact absurd h' hnil
    have hms : (models b clues).isEmpty = false := by
      cases hmsl : models b clues with
      | nil => exact absurd hmsl hne
      | cons a as => rfl
    cases hff : firstForced (models b clues) (unresolvedNames b) with
    | some nl =>
      obtain ⟨n0, l0⟩ := nl
      have hsolve : solve b clues = .CERTAIN_MOVE n0 l0 := by
        simp only [solve, hnil', hms, Bool.false_eq_true, if_false, hff]
      obtain ⟨pre, post, hsplit, hpre, hfi⟩ := firstForced_eq_some_split hff
      have hn0 : n0 ∈ unresolvedNames b := by
        rw [hsplit]
        exact List.mem_append_right _ (List.mem_cons_self n0 post)
      have hF0 : Forced b clues n0 l0 :=
        (forced_iff_forcedIn b clues hm n0 l0 hn0).mpr hfi
      have hRm : RmFirstAmongForced b clues n0 := by
        intro m lm hFm
        have hmmem := hFm.1
        rw [hsplit] at hmmem
        rcases List.mem_append.mp hmmem with hmem1 | hmem2
        · exfalso
          have hforced := (forced_iff_forcedIn b clues hm m lm hFm.1).mp hFm
          rw [hpre m hmem1] at hforced
          cases hforced
        · rcases List.mem_cons.mp hmem2 with rfl | hmem3
          · exact Or.inl rfl
          · exact Or.inr (split_rmLt_post b hnames hpos hsplit hmem3)
      constructor
      · intro n l
        constructor
        · intro h
          rw [hsolve] at h
          injection h with h1 h2
          subst h1; subst h2
          exact ⟨hF0, hRm⟩
        · rintro ⟨hF, hRmn⟩
          have hnn : n ∈ unresolvedNames b := hF.1
          have hfin : forcedIn (models b clues) n = some l :=
            (forced_iff_forcedIn b clues hm n l hnn).mp hF
          have heq : n0 = n := by
            rcases hRmn n0 l0 hF0 with h1 | h1
            · exact h1
            · rcases hRm n l hF with h2 | h2
              · exact h2.symm
              · exfalso
                obtain ⟨en, en0, hen, hen0, hlt1⟩ := h1
                obtain ⟨en0', en', hen0', hen', hlt2⟩ := h2
                rw [hen0'] at hen0
                rw [hen'] at hen
                cases hen0
                cases hen
                exact rmLt_asymm hlt1 hlt2
          subst heq
          have : l0 = l := by
            rw [hfin] at hfi
            exact (Option.some.inj hfi).symm
          subst this
          rw [hsolve]
      · constructor
        · intro h
          rw [hsolve] at h
          cases h
        · intro hnone
          exact absurd hF0 (hnone n0 l0)
    | none =>
      have hsolve : solve b clues = .NO_CERTAIN_MOVE := by
        simp only [solve, hnil', hms, Bool.false_eq_true, if_false, hff]
      have hallnone := (firstForced_eq_none_iff (models b clues) (unresolvedNames b)).mp hff
      constructor
      · intro n l
        constructor
        · intro h
          rw [hsolve] at h
          cases h
        · rintro ⟨hF, _⟩
          exfalso
          have hfin := (forced_iff_forcedIn b clues hm n l hF.1).mp hF
          rw [hallnone n hF.1] at hfin
          cases hfin
      · constructor
        · intro _ n l hF
          have hfin := (forced_iff_forcedIn b clues hm n l hF.1).mp hF
          rw [hallnone n hF.1] at hfin
          cases hfin
        · intro _
          exact hsolve

/-- The shape relation underlying `AgreeOn`. -/
def EntAgree (M : List String) (e1 e2 : Entity) : Prop :=
  e1.name = e2.name ∧ e1.profession = e2.profession ∧
  e1.pos = e2.pos ∧ (e1.name ∈ M → e1.state = e2.state)

theorem agreeOn_forall₂ {M : List String} {b1 b2 : Board} (h : AgreeOn M b1 b2) :
    List.Forall₂ (EntAgree M) b1.entities b2.entities :=
  h.2.2

theorem find?_forall₂ {R : Entity → Entity → Prop} :
    ∀ {l1 l2 : List Entity}, List.Forall₂ R l1 l2 →
      ∀ (p1 p2 : Entity → Bool), (∀ e1 e2, R e1 e2 → p1 e1 = p2 e2) →
      (l1.find? p1 = none ∧ l2.find? p2 = none) ∨
      (∃ a c, l1.find? p1 = some a ∧ l2.find? p2 = some c ∧ R a c) := by
  intro l1 l2 h
  induction h with
  | nil => intro p1 p2 _; exact Or.inl ⟨rfl, rfl⟩
  | cons hR hl ih =>
    intro p1 p2 hp
    rename_i a c l1t l2t
    cases hpa : p1 a with
    | true =>
      have hpc : p2 c = true := by rw [← hp a c hR]; exact hpa
      exact Or.inr ⟨a, c, List.find?_cons_of_pos _ hpa, List.find?_cons_of_pos _ hpc, hR⟩
    | false =>
      have hpc : p2 c = false := by rw [← hp a c hR]; exact hpa
      rcases ih p1 p2 hp with ⟨h1, h2⟩ | ⟨x, y, h1, h2, hxy⟩
      · refine Or.inl ⟨?_, ?_⟩
        · rw [List.find?_cons_of_neg _ (by simp [hpa])]; exact h1
        · rw [List.find?_cons_of_neg _ (by simp [hpc])]; exact h2
      · refine Or.inr ⟨x, y, ?_, ?_, hxy⟩
        · rw [List.find?_cons_of_neg _ (by simp [hpa])]; exact h1
        · rw [List.find?_cons_of_neg _ (by simp [hpc])]; exact h2

theorem entityAtPos_agree {M : List String} {b1 b2 : Board} (h : AgreeOn M b1 b2) (p : Pos) :
    (entityAtPos b1 p = none ∧ entityAtPos b2 p = none) ∨
    (∃ a c, entityAtPos b1 p = some a ∧ entityAtPos b2 p = some c ∧ EntAgree M a c) := by
  exact find?_forall₂ (agreeOn_forall₂ h) _ _ (fun e1 e2 hR => by simp [hR.2.2.1])

theorem charPos_agree {M : List String} {b1 b2 : Board} (h : AgreeOn M b1 b2) (nm : String) :
    charPos b1 nm = charPos b2 nm := by
  unfold charPos entityNamed
  rcases find?_forall₂ (agreeOn_forall₂ h) (fun e => e.name == nm) (fun e => e.name == nm)
      (fun e1 e2 hR => by simp [hR.1]) with ⟨h1, h2⟩ | ⟨a, c, h1, h2, hac⟩
  · rw [h1, h2]
  · rw [h1, h2]
    simp [hac.2.2.1]

theorem gridPositions_agree {M : List String} {b1 b2 : Board} (h : AgreeOn M b1 b2) :
    gridPositions b1 = gridPositions b2 := by
  unfold gridPositions
  rw [h.1, h.2.1]

theorem isEdgePos_agree {M : List String} {b1 b2 : Board} (h : AgreeOn M b1 b2) :
    isEdgePos b1 = isEdgePos b2 := by
  funext p
  unfold isEdgePos
  rw [h.1, h.2.1]

theorem map_pos_forall₂ {M : List String} :
    ∀ {l1 l2 : List Entity}, List.Forall₂ (EntAgree M) l1 l2 →
      l1.map (·.pos) = l2.map (·.pos) := by
  intro l1 l2 h
  induction h with
  | nil => rfl
  | cons hR _ ih => simp [hR.2.2.1, ih]

theorem allCharacters_agree {M : List String} {b1 b2 : Board} (h : AgreeOn M b1 b2) :
    b1.entities.map (·.pos) = b2.entities.map (·.pos) :=
  map_pos_forall₂ (agreeOn_forall₂ h)

theorem dirPositions_agree {M : List String} {b1 b2 : Board} (h : AgreeOn M b1 b2) :
    abovePositions b1 = abovePositions b2 ∧ belowPositions b1 = belowPositions b2 ∧
    leftOfPositions b1 = leftOfPositions b2 ∧ rightOfPositions b1 = rightOfPositions b2 ∧
    neighborPositions b1 = neighborPositions b2 := by
  unfold abovePositions belowPositions leftOfPositions rightOfPositions neighborPositions
  rw [gridPositions_agree h]
  exact ⟨rfl, rfl, rfl, rfl, rfl⟩

theorem hasProfessionStep_agree {M : List String} {b1 b2 : Board} (h : AgreeOn M b1 b2)
    (prof : String) (tr : Except EvalError Pos) :
    hasProfessionStep b1 prof tr = hasProfessionStep b2 prof tr := by
  cases tr with
  | error er => rfl
  | ok p =>
    simp only [hasProfessionStep]
    rcases entityAtPos_agree h p with ⟨h1, h2⟩ | ⟨a, c, h1, h2, hac⟩
    · rw [h1, h2]
    · rw [h1, h2]
      simp [hac.2.1]

theorem isEdgeStep_agree {M : List String} {b1 b2 : Board} (h : AgreeOn M b1 b2)
    (tr : Except EvalError Pos) : isEdgeStep b1 tr = isEdgeStep b2 tr := by
  cases tr with
  | error er => rfl
  | ok p =>
    simp only [isEdgeStep]
    rw [isEdgePos_agree h]

theorem nameAt_geom (b : Board) (p : Pos) :
    nameAt (geom b) p = (entityAtPos b p).map (·.name) := by
  unfold nameAt geom entityAtPos
  induction b.entities with
  | nil => rfl
  | cons a l ih =>
    simp only [List.map_cons]
    cases hp : (a.pos == p) with
    | true => simp [List.find?_cons, hp]
    | false =>
      simp only [List.find?_cons, hp]
      exact ih

theorem posOfG_geom (b : Board) (n : String) : posOfG (geom b) n = charPos b n := by
  unfold posOfG geom charPos entityNamed
  induction b.entities with
  | nil => rfl
  | cons a l ih =>
    simp only [List.map_cons]
    cases hn : (a.name == n) with
    | true => simp [List.find?_cons, hn]
    | false =>
      simp only [List.find?_cons, hn]
      exact ih

theorem optUnion_eq_some {a b : Option (List String)} {N : List String}
    (h : optUnion a b = some N) :
    ∃ Na Nb, a = some Na ∧ b = some Nb ∧ N = Na ++ Nb := by
  cases a with
  | none => cases h
  | some Na =>
    cases b with
    | none => cases h
    | some Nb => exact ⟨Na, Nb, rfl, rfl, (Option.some.inj h).symm⟩

theorem readsSeq_eq_some {f : Expr → Option (List String)} :
    ∀ {es : List Expr} {N : List String}, readsSeq f es = some N →
      ∀ e ∈ es, ∃ Ne, f e = some Ne ∧ ∀ x ∈ Ne, x ∈ N := by
  intro es
  induction es with
  | nil => intro N _ e he; cases he
  | cons a l ih =>
    intro N h e he
    obtain ⟨Na, Nb, ha, hb, rfl⟩ := optUnion_eq_some h
    rcases List.mem_cons.mp he with rfl | he2
    · exact ⟨Na, ha, fun x hx => List.mem_append_left _ hx⟩
    · obtain ⟨Ne, hNe, hsub⟩ := ih hb e he2
      exact ⟨Ne, hNe, fun x hx => List.mem_append_right _ (hsub x hx)⟩

theorem hasLabelStep_agree {M : List String} {b1 b2 : Board} (hag : AgreeOn M b1 b2)
    (lab : Label) (p : Pos) (hmem : ∀ a, entityAtPos b1 p = some a → a.name ∈ M) :
    hasLabelStep b1 lab (.ok p) = hasLabelStep b2 lab (.ok p) := by
  simp only [hasLabelStep]
  rcases entityAtPos_agree hag p with ⟨h1, h2⟩ | ⟨a, c, h1, h2, hac⟩
  · rw [h1, h2]
  · rw [h1, h2]
    have hst : a.state = c.state := hac.2.2.2 (hmem a h1)
    simp [hst]

theorem isUnknownStep_agree {M : List String} {b1 b2 : Board} (hag : AgreeOn M b1 b2)
    (p : Pos) (hmem : ∀ a, entityAtPos b1 p = some a → a.name ∈ M) :
    isUnknownStep b1 (.ok p) = isUnknownStep b2 (.ok p) := by
  simp only [isUnknownStep]
  rcases entityAtPos_agree hag p with ⟨h1, h2⟩ | ⟨a, c, h1, h2, hac⟩
  · rw [h1, h2]
  · rw [h1, h2]
    have hst : a.state = c.state := hac.2.2.2 (hmem a h1)
    simp [hst]

/-- Frame property of the evaluator: two boards of the same shape that
agree on the label-states of every entity in a clue's statically computed
read set evaluate the clue identically, whatever the fuel, binding, or
read-analysis fuel. -/
theorem evalF_frame :
    ∀ (n : Nat) {M : List String} {b1 b2 : Board}, AgreeOn M b1 b2 →
      ∀ (k : Nat) (bind : Option Pos) (e : Expr) (N : List String),
        readsF k (geom b1) e = some N → (∀ x ∈ N, x ∈ M) →
        evalF n b1 bind e = evalF n b2 bind e := by
  intro n
  induction n with
  | zero => intros; rfl
  | succ n ih =>
    intro M b1 b2 hag k bind e N hreads hsub
    cases k with
    | zero => exact Option.noConfusion hreads
    | succ k =>
      cases e with
      | Literal v => rfl
      | Character nm =>
        simp only [evalF]
        rw [charPos_agree hag]
      | AllCharacters =>
        simp only [evalF]
        rw [allCharacters_agree hag]
      | EdgePositions =>
        simp only [evalF]
        rw [gridPositions_agree hag, isEdgePos_agree hag]
      | Above e1 =>
        simp only [readsF] at hreads
        simp only [evalF]
        rw [(dirPositions_agree hag).1, ih hag k bind e1 N hreads hsub]
      | Below e1 =>
        simp only [readsF] at hreads
        simp only [evalF]
        rw [(dirPositions_agree hag).2.1, ih hag k bind e1 N hreads hsub]
      | LeftOf e1 =>
        simp only [readsF] at hreads
        simp only [evalF]
        rw [(dirPositions_agree hag).2.2.1, ih hag k bind e1 N hreads hsub]
      | RightOf e1 =>
        simp only [readsF] at hreads
        simp only [evalF]
        rw [(dirPositions_agree hag).2.2.2.1, ih hag k bind e1 N hreads hsub]
      | Neighbors e1 =>
        simp only [readsF] at hreads
        simp only [evalF]
        rw [(dirPositions_agree hag).2.2.2.2, ih hag k bind e1 N hreads hsub]
      | Filter src pred =>
        simp only [readsF] at hreads
        obtain ⟨Ns, Np, hs, hp, rfl⟩ := optUnion_eq_some hreads
        simp only [evalF]
        rw [ih hag k bind src Ns hs (fun x hx => hsub x (List.mem_append_left _ hx))]
        have hfun : (fun p => evalF n b1 (some p) pred) = (fun p => evalF n b2 (some p) pred) :=
          funext (fun p => ih hag k (some p) pred Np hp
            (fun x hx => hsub x (List.mem_append_right _ hx)))
        rw [hfun]
      | Intersection es =>
        simp only [readsF] at hreads
        cases hes : es.isEmpty with
        | true => simp [evalF, hes]
        | false =>
          simp only [evalF, hes, Bool.false_eq_true, if_false]
          rw [evalSeq_congr (fun e he => by
            obtain ⟨Ne, hNe, hNsub⟩ := readsSeq_eq_some hreads e he
            exact ih hag k bind e Ne hNe (fun x hx => hsub x (hNsub x hx)))]
      | Union es =>
        simp only [readsF] at hreads
        cases hes : es.isEmpty with
        | true => simp [evalF, hes]
        | false =>
          simp only [evalF, hes, Bool.false_eq_true, if_false]
          rw [evalSeq_congr (fun e he => by
            obtain ⟨Ne, hNe, hNsub⟩ := readsSeq_eq_some hreads e he
            exact ih hag k bind e Ne hNe (fun x hx => hsub x (hNsub x hx)))]
      | And es =>
        simp only [readsF] at hreads
        cases hes : es.isEmpty with
        | true => simp [evalF, hes]
        | false =>
          simp only [evalF, hes, Bool.false_eq_true, if_false]
          rw [evalSeq_congr (fun e he => by
            obtain ⟨Ne, hNe, hNsub⟩ := readsSeq_eq_some hreads e he
            exact ih hag k bind e Ne hNe (fun x hx => hsub x (hNsub x hx)))]
      | Or es =>
        simp only [readsF] at hreads
        cases hes : es.isEmpty with
        | true => simp [evalF, hes]
        | false =>
          simp only [evalF, hes, Bool.false_eq_true, if_false]
          rw [evalSeq_congr (fun e he => by
            obtain ⟨Ne, hNe, hNsub⟩ := readsSeq_eq_some hreads e he
            exact ih hag k bind e Ne hNe (fun x hx => hsub x (hNsub x hx)))]
      | Not e1 =>
        simp only [readsF] at hreads
        simp only [evalF]
        rw [ih hag k bind e1 N hreads hsub]
      | Count e1 =>
        simp only [readsF] at hreads
        simp only [evalF]
        rw [ih hag k bind e1 N hreads hsub]
      | Sum e1 =>
        simp only [readsF] at hreads
        simp only [evalF]
        rw [ih hag k bind e1 N hreads hsub]
      | HasLabel t lab =>
        cases t with
        | none => exact Option.noConfusion hreads
        | some e1 =>
          cases e1 <;> simp only [readsF] at hreads <;>
            try exact Option.noConfusion hreads
          case Character cn =>
            cases n with
            | zero => rfl
            | succ m =>
              simp only [evalF, Option.map]
              rw [posOfG_geom] at hreads
              cases hpc : charPos b1 cn with
              | none =>
                have hpc2 : charPos b2 cn = none := by rw [← charPos_agree hag]; exact hpc
                rw [hpc2]
                rfl
              | some p =>
                have hpc2 : charPos b2 cn = some p := by rw [← charPos_agree hag]; exact hpc
                rw [hpc2]
                rw [hpc] at hreads
                have hreads2 : (match nameAt (geom b1) p with
                    | some mm => some [mm]
                    | none => some ([] : List String)) = some N := hreads
                rw [nameAt_geom b1 p] at hreads2
                show hasLabelStep b1 lab (.ok p) = hasLabelStep b2 lab (.ok p)
                apply hasLabelStep_agree hag lab p
                intro a ha
                rw [ha] at hreads2
                simp only [Option.map] at hreads2
                have hN : N = [a.name] := (Option.some.inj hreads2).symm
                exact hsub a.name (by rw [hN]; exact List.mem_singleton.mpr rfl)
      | HasProfession t prof =>
        cases t with
        | none =>
          simp only [evalF, Option.map]
          exact hasProfessionStep_agree hag prof _
        | some e1 =>
          simp only [readsF] at hreads
          simp only [evalF, Option.map]
          rw [ih hag k bind e1 N hreads hsub]
          exact hasProfessionStep_agree hag prof _
      | IsEdge t =>
        cases t with
        | none =>
          simp only [evalF, Option.map]
          exact isEdgeStep_agree hag _
        | some e1 =>
          simp only [readsF] at hreads
          simp only [evalF, Option.map]
          rw [ih hag k bind e1 N hreads hsub]
          exact isEdgeStep_agree hag _
      | IsUnknown t =>
        cases t with
        | none => exact Option.noConfusion hreads
        | some e1 =>
          cases e1 <;> simp only [readsF] at hreads <;>
            try exact Option.noConfusion hreads
          case Character cn =>
            cases n with
            | zero => rfl
            | succ m =>
              simp only [evalF, Option.map]
              rw [posOfG_geom] at hreads
              cases hpc : charPos b1 cn with
              | none =>
                have hpc2 : charPos b2 cn = none := by rw [← charPos_agree hag]; exact hpc
                rw [hpc2]
                rfl
              | some p =>
                have hpc2 : charPos b2 cn = some p := by rw [← charPos_agree hag]; exact hpc
                rw [hpc2]
                rw [hpc] at hreads
                have hreads2 : (match nameAt (geom b1) p with
                    | some mm => some [mm]
                    | none => some ([] : List String)) = some N := hreads
                rw [nameAt_geom b1 p] at hreads2
                show isUnknownStep b1 (.ok p) = isUnknownStep b2 (.ok p)
                apply isUnknownStep_agree hag p
                intro a ha
                rw [ha] at hreads2
                simp only [Option.map] at hreads2
                have hN : N = [a.name] := (Option.some.inj hreads2).symm
                exact hsub a.name (by rw [hN]; exact List.mem_singleton.mpr rfl)
      | Equal a c =>
        simp only [readsF] at hreads
        obtain ⟨Na, Nc, ha, hc, rfl⟩ := optUnion_eq_some hreads
        simp only [evalF]
        rw [ih hag k bind a Na ha (fun x hx => hsub x (List.mem_append_left _ hx)),
          ih hag k bind c Nc hc (fun x hx => hsub x (List.mem_append_right _ hx))]
      | Greater a c =>
        simp only [readsF] at hreads
        obtain ⟨Na, Nc, ha, hc, rfl⟩ := optUnion_eq_some hreads
        simp only [evalF]
        rw [ih hag k bind a Na ha (fun x hx => hsub x (List.mem_append_left _ hx)),
          ih hag k bind c Nc hc (fun x hx => hsub x (List.mem_append_right _ hx))]
      | GreaterEqual a c =>
        simp only [readsF] at hreads
        obtain ⟨Na, Nc, ha, hc, rfl⟩ := optUnion_eq_some hreads
        simp only [evalF]
        rw [ih hag k bind a Na ha (fun x hx => hsub x (List.mem_append_left _ hx)),
          ih hag k bind c Nc hc (fun x hx => hsub x (List.mem_append_right _ hx))]
      | Less a c =>
        simp only [readsF] at hreads
        obtain ⟨Na, Nc, ha, hc, rfl⟩ := optUnion_eq_some hreads
        simp only [evalF]
        rw [ih hag k bind a Na ha (fun x hx => hsub x (List.mem_append_left _ hx)),
          ih hag k bind c Nc hc (fun x hx => hsub x (List.mem_append_right _ hx))]
      | LessEqual a c =>
        simp only [readsF] at hreads
        obtain ⟨Na, Nc, ha, hc, rfl⟩ := optUnion_eq_some hreads
        simp only [evalF]
        rw [ih hag k bind a Na ha (fun x hx => hsub x (List.mem_append_left _ hx)),
          ih hag k bind c Nc hc (fun x hx => hsub x (List.mem_append_right _ hx))]
      | IsOdd e1 =>
        simp only [readsF] at hreads
        simp only [evalF]
        rw [ih hag k bind e1 N hreads hsub]
      | IsEven e1 =>
        simp only [readsF] at hreads
        simp only [evalF]
        rw [ih hag k bind e1 N hreads hsub]
      | AreConnected e1 =>
        simp only [readsF] at hreads
        simp only [evalF]
        rw [ih hag k bind e1 N hreads hsub]
      | above' nm => rfl
      | below' nm => rfl
      | left_of nm => rfl
      | right_of nm => rfl
      | neighbors_of nm => rfl
      | criminals s => rfl
      | innocents s => rfl
      | count_criminals s => rfl
      | count_innocents s => rfl

theorem geom_applyAssign (b : Board) (σ : Assign) : geom (applyAssign b σ) = geom b := by
  unfold geom applyAssign
  simp only [List.map_map]
  apply List.map_congr_left
  intro e _
  cases hst : e.state with
  | known l => simp [hst]
  | unresolved =>
    cases hl : lookupA σ e.name with
    | none => simp [hst, hl]
    | some l => simp [hst, hl]

theorem lookupA_append_left {σ : Assign} {n : String} {l : Label}
    (h : lookupA σ n = some l) (δ : Assign) : lookupA (σ ++ δ) n = some l := by
  induction σ with
  | nil => cases h
  | cons q σ ih =>
    simp only [lookupA, List.cons_append, List.find?_cons] at h ⊢
    cases hq : (q.1 == n) with
    | true =>
      rw [hq] at h
      exact h
    | false =>
      rw [hq] at h
      exact ih h

theorem forall₂_map_same {α β : Type} {R : β → β → Prop} {f g : α → β} :
    ∀ l : List α, (∀ x ∈ l, R (f x) (g x)) → List.Forall₂ R (l.map f) (l.map g) := by
  intro l
  induction l with
  | nil => intro _; exact List.Forall₂.nil
  | cons a l ih =>
    intro h
    exact List.Forall₂.cons (h a (List.mem_cons_self a l))
      (ih (fun x hx => h x (List.mem_cons_of_mem a hx)))

/-- A partial trial board and any total extension of it agree on boards of
the same shape and on every entity the partial assignment already binds. -/
theorem agreeOn_applyAssign (b : Board) (σ δ : Assign) :
    AgreeOn (σ.map (·.1)) (applyAssign b σ) (applyAssign b (σ ++ δ)) := by
  refine ⟨rfl, rfl, ?_⟩
  simp only [applyAssign]
  apply forall₂_map_same
  intro e _
  cases hst : e.state with
  | known l => simp [hst]
  | unresolved =>
    cases hl : lookupA σ e.name with
    | none =>
      cases hl2 : lookupA (σ ++ δ) e.name with
      | none => simp [hst, hl, hl2]
      | some l2 =>
        simp only [hst, hl, hl2]
        refine ⟨trivial, trivial, trivial, fun hmem => ?_⟩
        obtain ⟨l3, hl3⟩ := lookupA_mem σ e.name hmem
        rw [hl] at hl3
        cases hl3
    | some l =>
      have hl2 := lookupA_append_left hl δ
      simp [hst, hl, hl2]

/-- Soundness of the prune test: once a fully-bound clue evaluates to false
at a partial assignment, no total extension of it is consistent. -/
theorem prune_sound (b : Board) (clues : List Expr) (σ δ : Assign)
    (hpr : pruneHere b clues σ = true) : consistentB b clues (σ ++ δ) = false := by
  simp only [pruneHere, List.any_eq_true, Bool.and_eq_true, decide_eq_true_eq] at hpr
  obtain ⟨c, hc, hbound, hfalse⟩ := hpr
  simp only [boundClue] at hbound
  cases hreads : readsF (exprSize c) (geom b) c with
  | none =>
    rw [hreads] at hbound
    cases hbound
  | some N =>
    rw [hreads] at hbound
    have hsub : ∀ x ∈ N, x ∈ σ.map (·.1) := by
      intro x hx
      have hcontains := List.all_eq_true.mp hbound x hx
      simpa using hcontains
    have hag : AgreeOn (σ.map (·.1)) (applyAssign b σ) (applyAssign b (σ ++ δ)) :=
      agreeOn_applyAssign b σ δ
    have hframe := evalF_frame (exprSize c) hag (exprSize c) none c N
      (by rw [geom_applyAssign]; exact hreads) hsub
    have hev : evaluate (applyAssign b (σ ++ δ)) none c = .ok (.bool false) := by
      unfold evaluate at hfalse ⊢
      rw [← hframe]
      exact hfalse
    cases hcon : consistentB b clues (σ ++ δ) with
    | false => rfl
    | true =>
      exfalso
      have htrue := List.all_eq_true.mp hcon c hc
      rw [decide_eq_true_eq] at htrue
      rw [hev] at htrue
      exact absurd htrue (by simp)

theorem extensions_cons (σ : Assign) (nm : String) (rest : List String) :
    extensions σ (nm :: rest) =
      extensions (σ ++ [(nm, .innocent)]) rest ++ extensions (σ ++ [(nm, .criminal)]) rest := by
  simp only [extensions, allAssignments, List.map_append, List.map_map]
  congr 1 <;> apply List.map_congr_left <;> intro δ _ <;> simp

/-- Backtracking explores exactly the consistent extensions of its partial
assignment, in enumeration order. -/
theorem backtrack_eq_filter (b : Board) (clues : List Expr) :
    ∀ (rest : List String) (σ : Assign),
      backtrack b clues σ rest = (extensions σ rest).filter (consistentB b clues) := by
  intro rest
  induction rest with
  | nil =>
    intro σ
    show (if consistentB b clues σ then [σ] else []) = _
    simp only [extensions, allAssignments, List.map_cons, List.map_nil, List.append_nil,
      List.filter_cons, List.filter_nil]
  | cons nm rest ih =>
    intro σ
    show (if pruneHere b clues σ then []
        else backtrack b clues (σ ++ [(nm, .innocent)]) rest ++
          backtrack b clues (σ ++ [(nm, .criminal)]) rest) = _
    cases hpr : pruneHere b clues σ with
    | true =>
      rw [if_pos rfl]
      symm
      apply List.filter_eq_nil_iff.mpr
      intro τ hτ
      simp only [extensions, List.mem_map] at hτ
      obtain ⟨δ, hδ, rfl⟩ := hτ
      rw [prune_sound b clues σ δ hpr]
      simp
    | false =>
      rw [if_neg (by simp)]
      rw [extensions_cons, List.filter_append, ih, ih]

theorem backtrack_models (b : Board) (clues : List Expr) :
    backtrack b clues [] (unresolvedNames b) = models b clues := by
  rw [backtrack_eq_filter]
  unfold extensions models
  simp

/-- C2: incremental backtracking trial generation with pruning returns
exactly the same solver result as full enumeration of all 2 ^ n total
assignments, on every board and clue set. -/
theorem c2_backtracking_equals_enumeration (b : Board) (clues : List Expr) :
    solveBT b clues = solve b clues := by
  simp only [solveBT, solve, backtrack_models]

/-- C1 witness at solver scenario A of the design document. -/
theorem c1_solver_certainty_witness :
    ((scenarioBoard.entities.map Entity.name).Nodup ∧
     (scenarioBoard.entities.map Entity.pos).Nodup ∧
     (∃ f, IsModel scenarioBoard [scenarioClue] f)) ∧
    (solve scenarioBoard [scenarioClue] = .CERTAIN_MOVE "B" .innocent ↔
      Forced scenarioBoard [scenarioClue] "B" .innocent ∧
      RmFirstAmongForced scenarioBoard [scenarioClue] "B") :=
  ⟨⟨by decide, by decide, ⟨fun _ => .innocent, by unfold IsModel; decide⟩⟩,
   (c1_solver_certainty scenarioBoard [scenarioClue] (by decide) (by decide)
      ⟨fun _ => .innocent, by unfold IsModel; decide⟩).1 "B" .innocent⟩

theorem solve_ne_timedOut (b : Board) (clues : List Expr) : solve b clues ≠ .TIMED_OUT := by
  intro h
  simp only [solve] at h
  split at h
  · cases h
  · split at h
    · cases h
    · split at h
      · cases h
      · cases h

/-- C3 counterexample: on a board with no unresolved entity and a clue
that is false on it, zero consistent models exist, yet the solver reports
NO_CERTAIN_MOVE (the degenerate n = 0 case short-circuits before trial
generation), not UNSAT. -/
theorem c3_zero_models_counterexample :
    (¬ ∃ f, IsModel resolvedBoard [falseClue] f) ∧
    solve resolvedBoard [falseClue] = .NO_CERTAIN_MOVE ∧
    Outcome.NO_CERTAIN_MOVE ≠ Outcome.UNSAT := by
  refine ⟨?_, by decide, by decide⟩
  rintro ⟨f, hf⟩
  have h1 := hf falseClue (List.mem_cons_self _ _)
  have h2 : evaluate (applyFun resolvedBoard f) none falseClue = .ok (.bool false) := rfl
  rw [h2] at h1
  exact absurd h1 (by simp)

/-- C3 (amended): the solver's outcome kind always lies in {CERTAIN_MOVE,
NO_CERTAIN_MOVE, UNSAT, TIMED_OUT} and is in fact never TIMED_OUT in this
synchronous model; whenever at least one entity is unresolved and zero
consistent models exist, the outcome is UNSAT — an outcome distinct from
NO_CERTAIN_MOVE, never silently ignored.  (With zero unresolved entities
the degenerate case of the design reports NO_CERTAIN_MOVE without
generating trials, even when the clues are contradictory.) -/
theorem c3_outcome_kinds (b : Board) (clues : List Expr)
    (hne : unresolvedNames b ≠ [])
    (hnm : ¬ ∃ f, IsModel b clues f) :
    solve b clues = .UNSAT ∧
    (∀ (b' : Board) (clues' : List Expr), solve b' clues' ≠ .TIMED_OUT) ∧
    Outcome.UNSAT ≠ Outcome.NO_CERTAIN_MOVE := by
  refine ⟨?_, fun b' clues' => solve_ne_timedOut b' clues', by decide⟩
  have hmodels : models b clues = [] := by
    cases hm : models b clues with
    | nil => rfl
    | cons σ rest =>
      exact absurd ⟨funOf σ, isModel_of_mem_models (by rw [hm]; exact List.mem_cons_self σ rest)⟩ hnm
  have hnil : (unresolvedNames b).isEmpty = false := by
    cases h' : (unresolvedNames b).isEmpty
    · rfl
    · exact absurd (List.isEmpty_iff.mp h') hne
  simp only [solve, hnil, Bool.false_eq_true, if_false, hmodels, List.isEmpty_nil, if_true]

theorem c3_outcome_kinds_witness :
    (unresolvedNames scenarioBoard ≠ [] ∧
      ¬ ∃ f, IsModel scenarioBoard [falseClue] f) ∧
    solve scenarioBoard [falseClue] = .UNSAT := by
  have hnm : ¬ ∃ f, IsModel scenarioBoard [falseClue] f := by
    rintro ⟨f, hf⟩
    have h1 := hf falseClue (List.mem_cons_self _ _)
    have h2 : evaluate (applyFun scenarioBoard f) none falseClue = .ok (.bool false) := rfl
    rw [h2] at h1
    exact absurd h1 (by simp)
  exact ⟨⟨by decide, hnm⟩, (c3_outcome_kinds scenarioBoard [falseClue] (by decide) hnm).1⟩

/-- C4 counterexample: the recommendation pipeline does assume a 5-by-4
grid — the vision prompts of analyzeWithClaude (background.js) and
analyzeWithOpenAI (content script) both declare "5x4 grid", "5 rows" and
"4 columns" verbatim. -/
theorem c4_prompt_hardcodes_5x4_counterexample :
    "- 5 rows (numbered 1-5 from top to bottom)" ∈ claudePromptGridLines ∧
    "- 4 columns (lettered A-D from left to right)" ∈ claudePromptGridLines ∧
    "- 5 rows (numbered 1-5 from top to bottom)" ∈ openAIPromptGridLines ∧
    "- 4 columns (lettered A-D from left to right)" ∈ openAIPromptGridLines := by
  refine ⟨?_, ?_, ?_, ?_⟩ <;> decide

/-- C4 (amended): the deduction solver itself generalizes to every board
of positive dimensions R x C — on an R x C board with a single unresolved
entity forced Criminal by its clue, the solver returns that certain move
whatever the dimensions; but the AI vision prompts hardcode 5x4 (see the
counterexample). -/
theorem c4_solver_any_dimensions (rows cols : Nat)
    (_hr : 0 < rows) (_hc : 0 < cols) :
    solve (singleBoard rows cols) [singleClue] = .CERTAIN_MOVE "A" .criminal := rfl

theorem c4_solver_any_dimensions_witness :
    (0 < 3 ∧ 0 < 7) ∧
    solve (singleBoard 3 7) [singleClue] = .CERTAIN_MOVE "A" .criminal :=
  ⟨⟨by decide, by decide⟩, c4_solver_any_dimensions 3 7 (by decide) (by decide)⟩

/-- C5: sugar expansion is idempotent — expand (expand e) = expand e for
every expression; expansion always lands in canonical trees, and on an
already-canonical tree it is a no-op, altering no subtree it does not
rewrite. -/
theorem c5_expand_idempotent :
    ∀ e : Expr, expand (expand e) = expand e ∧ Canonical (expand e) ∧
      (Canonical e → expand e = e) :=
  fun e => ⟨expand_expand e, canonical_expand e, fun h => expand_of_canonical h⟩

theorem c5_expand_idempotent_witness :
    Canonical (Expr.Count (.Filter .AllCharacters (.HasLabel none .criminal))) ∧
    expand (Expr.Count (.Filter .AllCharacters (.HasLabel none .criminal))) =
      Expr.Count (.Filter .AllCharacters (.HasLabel none .criminal)) ∧
    expand (expand (.count_criminals (.neighbors_of "Alice"))) =
      expand (.count_criminals (.neighbors_of "Alice")) := by
  have hcan : Canonical (Expr.Count (.Filter .AllCharacters (.HasLabel none .criminal))) :=
    .Count (.Filter .AllCharacters (.HasLabel .criminal (fun x hx => by cases hx)))
  exact ⟨hcan, (c5_expand_idempotent _).2.2 hcan,
    (c5_expand_idempotent (.count_criminals (.neighbors_of "Alice"))).1⟩

/-- C6: the evaluator is deterministic and pure — it is a function of the
(expression, board, binding) triple alone: any two evaluation runs, with
any sufficient fuel budgets, yield identical results, and each equals
`evaluate`. -/
theorem c6_evaluator_deterministic (e : Expr) (b : Board) (bind : Option Pos)
    (n m : Nat) (hn : exprSize e ≤ n) (hm : exprSize e ≤ m) :
    evalF n b bind e = evalF m b bind e ∧ evalF n b bind e = evaluate b bind e :=
  ⟨evalF_irrel n m b bind e hn hm, evalF_eq_evaluate n b bind e hn⟩

theorem c6_evaluator_deterministic_witness :
    (exprSize scenarioClue ≤ 8 ∧ exprSize scenarioClue ≤ 50) ∧
    evalF 8 scenarioBoard none scenarioClue = evalF 50 scenarioBoard none scenarioClue :=
  ⟨⟨by decide, by decide⟩,
   (c6_evaluator_deterministic scenarioClue scenarioBoard none 8 50 (by decide) (by decide)).1⟩

/-- C7: every trial board the solver constructs from an enumerated
assignment carries a concrete label on every entity — no Unresolved state
remains — and consequently no evaluation against such a trial board, with
any fuel, binding or expression, ever observes an Unresolved position
(never reports the Unresolved-position ReferenceError; note also that the
`Value` type has no Unresolved constructor at all). -/
theorem c7_trials_fully_resolved (b : Board) (σ : Assign)
    (hσ : σ ∈ allAssignments (unresolvedNames b)) :
    (∀ x ∈ (applyAssign b σ).entities, x.state ≠ .unresolved) ∧
    (∀ (n : Nat) (bind : Option Pos) (e : Expr) (p : Pos),
      evalF n (applyAssign b σ) bind e ≠
        .error (.referenceError (.unresolvedPosition p))) := by
  have hres := applyAssign_fullyResolved b σ (allAssignments_keys _ σ hσ)
  exact ⟨hres, fun n bind e p => evalF_URfree _ hres n bind e p⟩

theorem c7_trials_fully_resolved_witness :
    ([("B", Label.innocent)] ∈ allAssignments (unresolvedNames scenarioBoard)) ∧
    (∀ x ∈ (applyAssign scenarioBoard [("B", Label.innocent)]).entities,
      x.state ≠ .unresolved) :=
  ⟨by decide,
   (c7_trials_fully_resolved scenarioBoard [("B", Label.innocent)] (by decide)).1⟩

/-- C8: analyzeWithClaude throws the invalid-API-key error, before the
fetch call is reached, for every key not starting with "sk-ant-"; with a
valid key it reaches the request carrying the resolved model identifier;
and every model name outside the mapping {claude-sonnet-4, claude-opus-4-1}
falls back silently to 'claude-sonnet-4-20250514'. -/
theorem c8_claude_key_and_model (apiKey model : String) :
    (¬ jsStartsWith apiKey "sk-ant-" = true →
      analyzeWithClaudePre apiKey model =
        .thrown "Invalid Anthropic API key format. Must start with \"sk-ant-\"") ∧
    (jsStartsWith apiKey "sk-ant-" = true →
      analyzeWithClaudePre apiKey model = .apiRequest (resolveClaudeModel model)) ∧
    (model ≠ "claude-sonnet-4" → model ≠ "claude-opus-4-1" →
      resolveClaudeModel model = "claude-sonnet-4-20250514") := by
  refine ⟨?_, ?_, ?_⟩
  · intro h
    unfold analyzeWithClaudePre
    rw [if_neg h]
  · intro h
    unfold analyzeWithClaudePre
    rw [if_pos h]
  · intro h1 h2
    unfold resolveClaudeModel modelMapping
    rw [if_neg h1, if_neg h2]
    rfl

theorem c8_claude_key_and_model_witness :
    (¬ jsStartsWith "sk-test-123" "sk-ant-" = true ∧
      "gpt-5" ≠ "claude-sonnet-4" ∧ "gpt-5" ≠ "claude-opus-4-1") ∧
    analyzeWithClaudePre "sk-test-123" "gpt-5" =
      .thrown "Invalid Anthropic API key format. Must start with \"sk-ant-\"" ∧
    resolveClaudeModel "gpt-5" = "claude-sonnet-4-20250514" :=
  ⟨⟨by decide, by decide, by decide⟩,
   (c8_claude_key_and_model "sk-test-123" "gpt-5").1 (by decide),
   (c8_claude_key_and_model "sk-test-123" "gpt-5").2.2 (by decide) (by decide)⟩

/-- C9: parseCharacterCard returns null exactly when the card lacks a
coordinate, name or profession element; otherwise it returns a character
whose label is one of "innocent", "criminal", "unknown", and the label is
"innocent" or "criminal" only when the card carries the `flipped` class. -/
theorem c9_parseCharacterCard (card : CardElem) :
    (parseCharacterCard card = none ↔
      (card.coordText = none ∨ card.nameText = none ∨ card.professionText = none)) ∧
    (∀ ch, parseCharacterCard card = some ch →
      (ch.label = "innocent" ∨ ch.label = "criminal" ∨ ch.label = "unknown") ∧
      ((ch.label = "innocent" ∨ ch.label = "criminal") →
        card.classes.contains "flipped" = true)) := by
  cases hco : card.coordText with
  | none =>
    constructor
    · simp [parseCharacterCard, hco]
    · intro ch hch
      simp [parseCharacterCard, hco] at hch
  | some coordT =>
    cases hna : card.nameText with
    | none =>
      constructor
      · simp [parseCharacterCard, hco, hna]
      · intro ch hch
        simp [parseCharacterCard, hco, hna] at hch
    | some nameT =>
      cases hpr : card.professionText with
      | none =>
        constructor
        · simp [parseCharacterCard, hco, hna, hpr]
        · intro ch hch
          simp [parseCharacterCard, hco, hna, hpr] at hch
      | some profT =>
        constructor
        · simp [parseCharacterCard, hco, hna, hpr]
        · intro ch hch
          simp only [parseCharacterCard, hco, hna, hpr, Option.some.injEq] at hch
          subst hch
          cases hfl : card.classes.contains "flipped" with
          | false =>
            refine ⟨Or.inr (Or.inr ?_), fun hlab => ?_⟩
            · simp [hfl]
            · exfalso
              rcases hlab with h | h <;> simp [hfl] at h
          | true =>
            refine ⟨?_, fun _ => rfl⟩
            cases hin : card.classes.contains "innocent" with
            | true =>
              left
              simp [hfl, hin]
            | false =>
              cases hcr : card.classes.contains "criminal" with
              | true =>
                right; left
                simp [hfl, hin, hcr]
              | false =>
                right; right
                simp [hfl, hin, hcr]

theorem c9_parseCharacterCard_witness :
    (parseCharacterCard ⟨some "A1", some "Alice", some "sleuth", ["card", "flipped", "innocent"],
        none⟩ = some ⟨"Alice", "sleuth", "A1", "innocent", none⟩) ∧
    (⟨"Alice", "sleuth", "A1", "innocent", none⟩ : ParsedCharacter).label = "innocent" ∧
    (["card", "flipped", "innocent"] : List String).contains "flipped" = true :=
  ⟨by decide, by decide,
   ((c9_parseCharacterCard ⟨some "A1", some "Alice", some "sleuth",
        ["card", "flipped", "innocent"], none⟩).2
      ⟨"Alice", "sleuth", "A1", "innocent", none⟩ (by decide)).2 (Or.inl (by decide))⟩

theorem foldl_push_eq_filterMap :
    ∀ (cards : List CardNode) (acc : List ParsedCharacter),
      cards.foldl (fun acc card =>
        match tryParseCard card with
        | .ok (some ch) => acc ++ [ch]
        | _ => acc) acc = acc ++ successfulCards cards := by
  intro cards
  induction cards with
  | nil => intro acc; simp [successfulCards]
  | cons c cs ih =>
    intro acc
    simp only [List.foldl_cons, successfulCards, List.filterMap_cons]
    cases h : tryParseCard c with
    | error e =>
      have := ih acc
      simpa [successfulCards] using this
    | ok o =>
      cases o with
      | none =>
        have := ih acc
        simpa [successfulCards] using this
      | some ch =>
        have := ih (acc ++ [ch])
        simpa [successfulCards, List.append_assoc] using this

/-- C10: parseGameState throws exactly when the `.card-grid` container is
absent (with the "Game grid not found on page" error); otherwise every
card whose parsing throws or yields null is skipped, and the returned game
state is exactly the successfully parsed characters in document order. -/
theorem c10_parseGameState (page : Page) :
    (∀ err, parseGameState page = .error err ↔
      (page.cardGrid = none ∧ err = "Game grid not found on page")) ∧
    (∀ cards, page.cardGrid = some cards →
      parseGameState page = .ok (successfulCards cards)) := by
  cases hg : page.cardGrid with
  | none =>
    constructor
    · intro err
      constructor
      · intro h
        simp only [parseGameState, hg] at h
        exact ⟨rfl, (Except.error.inj h).symm⟩
      · rintro ⟨_, rfl⟩
        simp [parseGameState, hg]
    · intro cards hc
      cases hc
  | some cards0 =>
    constructor
    · intro err
      constructor
      · intro h
        simp only [parseGameState, hg] at h
        cases h
      · rintro ⟨hnone, _⟩
        cases hnone
    · intro cards hc
      cases hc
      simp only [parseGameState, hg]
      rw [foldl_push_eq_filterMap cards0 []]
      rfl

theorem c10_parseGameState_witness :
    ((⟨some [CardNode.node ⟨some "A1", some "Alice", some "sleuth", ["flipped", "innocent"], none⟩,
        CardNode.throwing "boom",
        CardNode.node ⟨none, some "Bob", some "clerk", [], none⟩]⟩ : Page).cardGrid =
      some [CardNode.node ⟨some "A1", some "Alice", some "sleuth", ["flipped", "innocent"], none⟩,
        CardNode.throwing "boom",
        CardNode.node ⟨none, some "Bob", some "clerk", [], none⟩]) ∧
    parseGameState ⟨some [CardNode.node ⟨some "A1", some "Alice", some "sleuth",
        ["flipped", "innocent"], none⟩,
      CardNode.throwing "boom",
      CardNode.node ⟨none, some "Bob", some "clerk", [], none⟩]⟩ =
      .ok [⟨"Alice", "sleuth", "A1", "innocent", none⟩] := by
  refine ⟨rfl, ?_⟩
  have h := (c10_parseGameState ⟨some [CardNode.node ⟨some "A1", some "Alice", some "sleuth",
      ["flipped", "innocent"], none⟩,
    CardNode.throwing "boom",
    CardNode.node ⟨none, some "Bob", some "clerk", [], none⟩]⟩).2 _ rfl
  rw [h]
  decide

end Clues
